import Mathlib

/-!
Verification development for the HiMCM visualize-path repository.

The development shallowly embeds the algorithmic core of the repository:
the 32-direction generator, the diagonal-corner rule and the A-star search
of src/modules/pathfinding.py, the walkability-map rasterizer, the BSP
space splitter and the connectivity builder of src/modules/map_generator.py,
and the metric helpers (path distance, step count, nearest exit).

Modelling conventions: Python floats are modelled as real numbers, Python
float infinity as the top element of EReal, meter-valued geometry (which the
generator manipulates with float literals) as rationals, and the priority
queue of the A-star loop as a nondeterministic pop of a minimal-f node, which
covers every tie-breaking order the binary heap may realize.
-/

/-! Positions and Euclidean geometry (math.dist, math.sqrt). -/

abbrev Pos : Type := ℤ × ℤ

noncomputable def eDist (a b : Pos) : ℝ :=
  Real.sqrt (((a.1 - b.1 : ℤ) : ℝ) ^ 2 + ((a.2 - b.2 : ℤ) : ℝ) ^ 2)

/-! Direction generation, from generate_32_directions in
src/modules/pathfinding.py: for i in range(32), angle = 2*pi*i/32,
dx = round(cos(angle)), dy = round(sin(angle)), keep (dx, dy) if it is
neither (0,0) nor a duplicate of an earlier direction. -/

noncomputable def roundedDir (i : ℕ) : ℤ × ℤ :=
  (round (Real.cos (2 * Real.pi * (i : ℝ) / 32)),
   round (Real.sin (2 * Real.pi * (i : ℝ) / 32)))

def dedupStep (acc : List (ℤ × ℤ)) (d : ℤ × ℤ) : List (ℤ × ℤ) :=
  if d ≠ (0, 0) ∧ d ∉ acc then acc ++ [d] else acc

noncomputable def generate_32_directions : List (ℤ × ℤ) :=
  ((List.range 32).map roundedDir).foldl dedupStep []

noncomputable def DIRECTIONS_32 : List (ℤ × ℤ) := generate_32_directions

/-- The concrete value that the direction generator evaluates to. -/
def dirList : List (ℤ × ℤ) :=
  [(1, 0), (1, 1), (0, 1), (-1, 1), (-1, 0), (-1, -1), (0, -1), (1, -1)]

/-! Evaluation of the rounded trigonometric table. -/

lemma round_eq_one_of {x : ℝ} (h1 : 1 / 2 < x) (h2 : x ≤ 1) : round x = 1 := by
  rw [round_eq, Int.floor_eq_iff]
  constructor <;> push_cast <;> linarith

lemma round_eq_zero_of {x : ℝ} (h1 : -(1 / 2) < x) (h2 : x < 1 / 2) : round x = 0 := by
  rw [round_eq, Int.floor_eq_iff]
  constructor <;> push_cast <;> linarith

lemma round_eq_negone_of {x : ℝ} (h1 : -1 ≤ x) (h2 : x < -(1 / 2)) : round x = -1 := by
  rw [round_eq, Int.floor_eq_iff]
  constructor <;> push_cast <;> linarith

lemma round_cos_abs_one {θ : ℝ} (h : |θ| < Real.pi / 3) : round (Real.cos θ) = 1 := by
  have hpi := Real.pi_pos
  have hmem : |θ| ∈ Set.Icc (0 : ℝ) Real.pi := ⟨abs_nonneg θ, by linarith⟩
  have hmem2 : Real.pi / 3 ∈ Set.Icc (0 : ℝ) Real.pi := ⟨by linarith, by linarith⟩
  have hlt := Real.strictAntiOn_cos hmem hmem2 h
  rw [Real.cos_pi_div_three, Real.cos_abs] at hlt
  exact round_eq_one_of hlt (Real.cos_le_one θ)

lemma round_cos_abs_zero {θ : ℝ} (h1 : Real.pi / 3 < |θ|) (h2 : |θ| < 2 * Real.pi / 3) :
    round (Real.cos θ) = 0 := by
  have hpi := Real.pi_pos
  have hmem : |θ| ∈ Set.Icc (0 : ℝ) Real.pi := ⟨abs_nonneg θ, by linarith⟩
  have hmem1 : Real.pi / 3 ∈ Set.Icc (0 : ℝ) Real.pi := ⟨by linarith, by linarith⟩
  have hmem2 : 2 * Real.pi / 3 ∈ Set.Icc (0 : ℝ) Real.pi := ⟨by linarith, by linarith⟩
  have hup := Real.strictAntiOn_cos hmem1 hmem h1
  have hlo := Real.strictAntiOn_cos hmem hmem2 h2
  rw [Real.cos_pi_div_three, Real.cos_abs] at hup
  have h23 : Real.cos (2 * Real.pi / 3) = -(1 / 2) := by
    rw [show 2 * Real.pi / 3 = Real.pi - Real.pi / 3 by ring, Real.cos_pi_sub,
      Real.cos_pi_div_three]
  rw [h23, Real.cos_abs] at hlo
  exact round_eq_zero_of hlo hup

lemma round_cos_abs_negone {θ : ℝ} (h1 : 2 * Real.pi / 3 < |θ|) (h2 : |θ| ≤ Real.pi) :
    round (Real.cos θ) = -1 := by
  have hpi := Real.pi_pos
  have hmem : |θ| ∈ Set.Icc (0 : ℝ) Real.pi := ⟨abs_nonneg θ, h2⟩
  have hmem2 : 2 * Real.pi / 3 ∈ Set.Icc (0 : ℝ) Real.pi := ⟨by linarith, by linarith⟩
  have hlo := Real.strictAntiOn_cos hmem2 hmem h1
  have h23 : Real.cos (2 * Real.pi / 3) = -(1 / 2) := by
    rw [show 2 * Real.pi / 3 = Real.pi - Real.pi / 3 by ring, Real.cos_pi_sub,
      Real.cos_pi_div_three]
  rw [h23, Real.cos_abs] at hlo
  exact round_eq_negone_of (Real.neg_one_le_cos θ) hlo

lemma rc_one {θ : ℝ} (h1 : -(Real.pi / 3) < θ) (h2 : θ < Real.pi / 3) :
    round (Real.cos θ) = 1 :=
  round_cos_abs_one (abs_lt.mpr ⟨h1, h2⟩)

lemma rc_zero_pos {θ : ℝ} (h1 : Real.pi / 3 < θ) (h2 : θ < 2 * Real.pi / 3) :
    round (Real.cos θ) = 0 := by
  have h0 : (0 : ℝ) ≤ θ := by linarith [Real.pi_pos]
  exact round_cos_abs_zero (by rwa [abs_of_nonneg h0]) (by rwa [abs_of_nonneg h0])

lemma rc_zero_neg {θ : ℝ} (h1 : -(2 * Real.pi / 3) < θ) (h2 : θ < -(Real.pi / 3)) :
    round (Real.cos θ) = 0 := by
  have h0 : θ ≤ 0 := by linarith [Real.pi_pos]
  exact round_cos_abs_zero (by rw [abs_of_nonpos h0]; linarith)
    (by rw [abs_of_nonpos h0]; linarith)

lemma rc_negone_pos {θ : ℝ} (h1 : 2 * Real.pi / 3 < θ) (h2 : θ ≤ Real.pi) :
    round (Real.cos θ) = -1 := by
  have h0 : (0 : ℝ) ≤ θ := by linarith [Real.pi_pos]
  exact round_cos_abs_negone (by rwa [abs_of_nonneg h0]) (by rwa [abs_of_nonneg h0])

lemma rc_negone_neg {θ : ℝ} (h1 : -Real.pi ≤ θ) (h2 : θ < -(2 * Real.pi / 3)) :
    round (Real.cos θ) = -1 := by
  have h0 : θ ≤ 0 := by linarith [Real.pi_pos]
  exact round_cos_abs_negone (by rw [abs_of_nonpos h0]; linarith)
    (by rw [abs_of_nonpos h0]; linarith)

lemma rc_shift {θ : ℝ} {v : ℤ} (h : round (Real.cos (θ - 2 * Real.pi)) = v) :
    round (Real.cos θ) = v := by
  rw [← Real.cos_sub_two_pi]; exact h

lemma rs_of_rc {θ : ℝ} {v : ℤ} (h : round (Real.cos (Real.pi / 2 - θ)) = v) :
    round (Real.sin θ) = v := by
  rw [← Real.cos_pi_div_two_sub]; exact h

lemma rc_shift_up {θ : ℝ} {v : ℤ} (h : round (Real.cos (θ + 2 * Real.pi)) = v) :
    round (Real.cos θ) = v := by
  rw [← Real.cos_add_two_pi]; exact h

lemma roundedDir_eq_of {i : ℕ} {c s : ℤ}
    (hc : round (Real.cos (2 * Real.pi * (i : ℝ) / 32)) = c)
    (hs : round (Real.sin (2 * Real.pi * (i : ℝ) / 32)) = s) :
    roundedDir i = (c, s) := by
  unfold roundedDir; rw [hc, hs]

lemma rd0 : roundedDir 0 = (1, 0) :=
  roundedDir_eq_of (rc_one (by push_cast; linarith [Real.pi_pos]) (by push_cast; linarith [Real.pi_pos])) (rs_of_rc (rc_zero_pos (by push_cast; linarith [Real.pi_pos]) (by push_cast; linarith [Real.pi_pos])))

lemma rd1 : roundedDir 1 = (1, 0) :=
  roundedDir_eq_of (rc_one (by push_cast; linarith [Real.pi_pos]) (by push_cast; linarith [Real.pi_pos])) (rs_of_rc (rc_zero_pos (by push_cast; linarith [Real.pi_pos]) (by push_cast; linarith [Real.pi_pos])))

lemma rd2 : roundedDir 2 = (1, 0) :=
  roundedDir_eq_of (rc_one (by push_cast; linarith [Real.pi_pos]) (by push_cast; linarith [Real.pi_pos])) (rs_of_rc (rc_zero_pos (by push_cast; linarith [Real.pi_pos]) (by push_cast; linarith [Real.pi_pos])))

lemma rd3 : roundedDir 3 = (1, 1) :=
  roundedDir_eq_of (rc_one (by push_cast; linarith [Real.pi_pos]) (by push_cast; linarith [Real.pi_pos])) (rs_of_rc (rc_one (by push_cast; linarith [Real.pi_pos]) (by push_cast; linarith [Real.pi_pos])))

lemma rd4 : roundedDir 4 = (1, 1) :=
  roundedDir_eq_of (rc_one (by push_cast; linarith [Real.pi_pos]) (by push_cast; linarith [Real.pi_pos])) (rs_of_rc (rc_one (by push_cast; linarith [Real.pi_pos]) (by push_cast; linarith [Real.pi_pos])))

lemma rd5 : roundedDir 5 = (1, 1) :=
  roundedDir_eq_of (rc_one (by push_cast; linarith [Real.pi_pos]) (by push_cast; linarith [Real.pi_pos])) (rs_of_rc (rc_one (by push_cast; linarith [Real.pi_pos]) (by push_cast; linarith [Real.pi_pos])))

lemma rd6 : roundedDir 6 = (0, 1) :=
  roundedDir_eq_of (rc_zero_pos (by push_cast; linarith [Real.pi_pos]) (by push_cast; linarith [Real.pi_pos])) (rs_of_rc (rc_one (by push_cast; linarith [Real.pi_pos]) (by push_cast; linarith [Real.pi_pos])))

lemma rd7 : roundedDir 7 = (0, 1) :=
  roundedDir_eq_of (rc_zero_pos (by push_cast; linarith [Real.pi_pos]) (by push_cast; linarith [Real.pi_pos])) (rs_of_rc (rc_one (by push_cast; linarith [Real.pi_pos]) (by push_cast; linarith [Real.pi_pos])))

lemma rd8 : roundedDir 8 = (0, 1) :=
  roundedDir_eq_of (rc_zero_pos (by push_cast; linarith [Real.pi_pos]) (by push_cast; linarith [Real.pi_pos])) (rs_of_rc (rc_one (by push_cast; linarith [Real.pi_pos]) (by push_cast; linarith [Real.pi_pos])))

lemma rd9 : roundedDir 9 = (0, 1) :=
  roundedDir_eq_of (rc_zero_pos (by push_cast; linarith [Real.pi_pos]) (by push_cast; linarith [Real.pi_pos])) (rs_of_rc (rc_one (by push_cast; linarith [Real.pi_pos]) (by push_cast; linarith [Real.pi_pos])))

lemma rd10 : roundedDir 10 = (0, 1) :=
  roundedDir_eq_of (rc_zero_pos (by push_cast; linarith [Real.pi_pos]) (by push_cast; linarith [Real.pi_pos])) (rs_of_rc (rc_one (by push_cast; linarith [Real.pi_pos]) (by push_cast; linarith [Real.pi_pos])))

lemma rd11 : roundedDir 11 = (-1, 1) :=
  roundedDir_eq_of (rc_negone_pos (by push_cast; linarith [Real.pi_pos]) (by push_cast; linarith [Real.pi_pos])) (rs_of_rc (rc_one (by push_cast; linarith [Real.pi_pos]) (by push_cast; linarith [Real.pi_pos])))

lemma rd12 : roundedDir 12 = (-1, 1) :=
  roundedDir_eq_of (rc_negone_pos (by push_cast; linarith [Real.pi_pos]) (by push_cast; linarith [Real.pi_pos])) (rs_of_rc (rc_one (by push_cast; linarith [Real.pi_pos]) (by push_cast; linarith [Real.pi_pos])))

lemma rd13 : roundedDir 13 = (-1, 1) :=
  roundedDir_eq_of (rc_negone_pos (by push_cast; linarith [Real.pi_pos]) (by push_cast; linarith [Real.pi_pos])) (rs_of_rc (rc_one (by push_cast; linarith [Real.pi_pos]) (by push_cast; linarith [Real.pi_pos])))

lemma rd14 : roundedDir 14 = (-1, 0) :=
  roundedDir_eq_of (rc_negone_pos (by push_cast; linarith [Real.pi_pos]) (by push_cast; linarith [Real.pi_pos])) (rs_of_rc (rc_zero_neg (by push_cast; linarith [Real.pi_pos]) (by push_cast; linarith [Real.pi_pos])))

lemma rd15 : roundedDir 15 = (-1, 0) :=
  roundedDir_eq_of (rc_negone_pos (by push_cast; linarith [Real.pi_pos]) (by push_cast; linarith [Real.pi_pos])) (rs_of_rc (rc_zero_neg (by push_cast; linarith [Real.pi_pos]) (by push_cast; linarith [Real.pi_pos])))

lemma rd16 : roundedDir 16 = (-1, 0) :=
  roundedDir_eq_of (rc_negone_pos (by push_cast; linarith [Real.pi_pos]) (by push_cast; linarith [Real.pi_pos])) (rs_of_rc (rc_zero_neg (by push_cast; linarith [Real.pi_pos]) (by push_cast; linarith [Real.pi_pos])))

lemma rd17 : roundedDir 17 = (-1, 0) :=
  roundedDir_eq_of (rc_shift (rc_negone_neg (by push_cast; linarith [Real.pi_pos]) (by push_cast; linarith [Real.pi_pos]))) (rs_of_rc (rc_zero_neg (by push_cast; linarith [Real.pi_pos]) (by push_cast; linarith [Real.pi_pos])))

lemma rd18 : roundedDir 18 = (-1, 0) :=
  roundedDir_eq_of (rc_shift (rc_negone_neg (by push_cast; linarith [Real.pi_pos]) (by push_cast; linarith [Real.pi_pos]))) (rs_of_rc (rc_zero_neg (by push_cast; linarith [Real.pi_pos]) (by push_cast; linarith [Real.pi_pos])))

lemma rd19 : roundedDir 19 = (-1, -1) :=
  roundedDir_eq_of (rc_shift (rc_negone_neg (by push_cast; linarith [Real.pi_pos]) (by push_cast; linarith [Real.pi_pos]))) (rs_of_rc (rc_negone_neg (by push_cast; linarith [Real.pi_pos]) (by push_cast; linarith [Real.pi_pos])))

lemma rd20 : roundedDir 20 = (-1, -1) :=
  roundedDir_eq_of (rc_shift (rc_negone_neg (by push_cast; linarith [Real.pi_pos]) (by push_cast; linarith [Real.pi_pos]))) (rs_of_rc (rc_negone_neg (by push_cast; linarith [Real.pi_pos]) (by push_cast; linarith [Real.pi_pos])))

lemma rd21 : roundedDir 21 = (-1, -1) :=
  roundedDir_eq_of (rc_shift (rc_negone_neg (by push_cast; linarith [Real.pi_pos]) (by push_cast; linarith [Real.pi_pos]))) (rs_of_rc (rc_negone_neg (by push_cast; linarith [Real.pi_pos]) (by push_cast; linarith [Real.pi_pos])))

lemma rd22 : roundedDir 22 = (0, -1) :=
  roundedDir_eq_of (rc_shift (rc_zero_neg (by push_cast; linarith [Real.pi_pos]) (by push_cast; linarith [Real.pi_pos]))) (rs_of_rc (rc_negone_neg (by push_cast; linarith [Real.pi_pos]) (by push_cast; linarith [Real.pi_pos])))

lemma rd23 : roundedDir 23 = (0, -1) :=
  roundedDir_eq_of (rc_shift (rc_zero_neg (by push_cast; linarith [Real.pi_pos]) (by push_cast; linarith [Real.pi_pos]))) (rs_of_rc (rc_negone_neg (by push_cast; linarith [Real.pi_pos]) (by push_cast; linarith [Real.pi_pos])))

lemma rd24 : roundedDir 24 = (0, -1) :=
  roundedDir_eq_of (rc_shift (rc_zero_neg (by push_cast; linarith [Real.pi_pos]) (by push_cast; linarith [Real.pi_pos]))) (rs_of_rc (rc_negone_neg (by push_cast; linarith [Real.pi_pos]) (by push_cast; linarith [Real.pi_pos])))

lemma rd25 : roundedDir 25 = (0, -1) :=
  roundedDir_eq_of (rc_shift (rc_zero_neg (by push_cast; linarith [Real.pi_pos]) (by push_cast; linarith [Real.pi_pos]))) (rs_of_rc (rc_shift_up (rc_negone_pos (by push_cast; linarith [Real.pi_pos]) (by push_cast; linarith [Real.pi_pos]))))

lemma rd26 : roundedDir 26 = (0, -1) :=
  roundedDir_eq_of (rc_shift (rc_zero_neg (by push_cast; linarith [Real.pi_pos]) (by push_cast; linarith [Real.pi_pos]))) (rs_of_rc (rc_shift_up (rc_negone_pos (by push_cast; linarith [Real.pi_pos]) (by push_cast; linarith [Real.pi_pos]))))

lemma rd27 : roundedDir 27 = (1, -1) :=
  roundedDir_eq_of (rc_shift (rc_one (by push_cast; linarith [Real.pi_pos]) (by push_cast; linarith [Real.pi_pos]))) (rs_of_rc (rc_shift_up (rc_negone_pos (by push_cast; linarith [Real.pi_pos]) (by push_cast; linarith [Real.pi_pos]))))

lemma rd28 : roundedDir 28 = (1, -1) :=
  roundedDir_eq_of (rc_shift (rc_one (by push_cast; linarith [Real.pi_pos]) (by push_cast; linarith [Real.pi_pos]))) (rs_of_rc (rc_shift_up (rc_negone_pos (by push_cast; linarith [Real.pi_pos]) (by push_cast; linarith [Real.pi_pos]))))

lemma rd29 : roundedDir 29 = (1, -1) :=
  roundedDir_eq_of (rc_shift (rc_one (by push_cast; linarith [Real.pi_pos]) (by push_cast; linarith [Real.pi_pos]))) (rs_of_rc (rc_shift_up (rc_negone_pos (by push_cast; linarith [Real.pi_pos]) (by push_cast; linarith [Real.pi_pos]))))

lemma rd30 : roundedDir 30 = (1, 0) :=
  roundedDir_eq_of (rc_shift (rc_one (by push_cast; linarith [Real.pi_pos]) (by push_cast; linarith [Real.pi_pos]))) (rs_of_rc (rc_shift_up (rc_zero_pos (by push_cast; linarith [Real.pi_pos]) (by push_cast; linarith [Real.pi_pos]))))

lemma rd31 : roundedDir 31 = (1, 0) :=
  roundedDir_eq_of (rc_shift (rc_one (by push_cast; linarith [Real.pi_pos]) (by push_cast; linarith [Real.pi_pos]))) (rs_of_rc (rc_shift_up (rc_zero_pos (by push_cast; linarith [Real.pi_pos]) (by push_cast; linarith [Real.pi_pos]))))


lemma range32_eval : List.range 32 = [0, 1, 2, 3, 4, 5, 6, 7, 8, 9, 10, 11, 12, 13, 14, 15,
    16, 17, 18, 19, 20, 21, 22, 23, 24, 25, 26, 27, 28, 29, 30, 31] := by decide

set_option maxRecDepth 8000 in
lemma generate_32_directions_eval : generate_32_directions = dirList := by
  unfold generate_32_directions
  rw [range32_eval]
  simp only [List.map_cons, List.map_nil, rd0, rd1, rd2, rd3, rd4, rd5, rd6, rd7, rd8, rd9, rd10, rd11, rd12, rd13, rd14, rd15, rd16, rd17, rd18, rd19, rd20, rd21, rd22, rd23, rd24, rd25, rd26, rd27, rd28, rd29, rd30, rd31]
  decide

lemma DIRECTIONS_32_eval : DIRECTIONS_32 = dirList :=
  generate_32_directions_eval


/-! Walkability grids. A grid models the 2D array grid[x][y] of
src/modules/pathfinding.py together with its dimensions len(grid) and
len(grid[0]); cell values are the stored bytes (0 = walkable, 1 = wall). -/

structure Grid where
  w : ℕ
  h : ℕ
  cell : ℤ → ℤ → ℕ

def inBounds (g : Grid) (p : Pos) : Prop :=
  0 ≤ p.1 ∧ p.1 < (g.w : ℤ) ∧ 0 ≤ p.2 ∧ p.2 < (g.h : ℤ)

instance (g : Grid) (p : Pos) : Decidable (inBounds g p) := by
  unfold inBounds; infer_instance

/-- Clamp of the start and end positions to valid grid boundaries, from
a_star_search in src/modules/pathfinding.py. -/
def clampPos (g : Grid) (p : Pos) : Pos :=
  (max 0 (min p.1 ((g.w : ℤ) - 1)), max 0 (min p.2 ((g.h : ℤ) - 1)))

/-- Scan offsets of the unwalkable-endpoint adjustment loop: dx runs from
-5 to 5 in the outer loop and dy from -5 to 5 in the inner loop. -/
def scanOffsets : List (ℤ × ℤ) :=
  (List.range 11).flatMap (fun dx => (List.range 11).map (fun dy => ((dx : ℤ) - 5, (dy : ℤ) - 5)))

/-- The body of the scan loop: the candidate cell p + d is accepted when it
is inside the grid and walkable. -/
def scanHit (g : Grid) (p : Pos) (d : ℤ × ℤ) : Bool :=
  decide (0 ≤ p.1 + d.1) && decide (p.1 + d.1 < (g.w : ℤ)) &&
    decide (0 ≤ p.2 + d.2) && decide (p.2 + d.2 < (g.h : ℤ)) &&
    (g.cell (p.1 + d.1) (p.2 + d.2) == 0)

/-- The endpoint adjustment of a_star_search: when the cell is not walkable,
take the first scanned in-bounds walkable cell, breaking out of both loops;
keep the original cell when the scan finds nothing. -/
def adjustPoint (g : Grid) (p : Pos) : Pos :=
  if g.cell p.1 p.2 ≠ 0 then
    match scanOffsets.find? (scanHit g p) with
    | some d => (p.1 + d.1, p.2 + d.2)
    | none => p
  else p

/-- Embedding of is_diagonal_move_valid from src/modules/pathfinding.py. -/
def is_diagonal_move_valid (g : Grid) (c n : Pos) : Bool :=
  if |n.1 - c.1| = 1 ∧ |n.2 - c.2| = 1 then
    if g.cell n.1 c.2 ≠ 0 ∨ g.cell c.1 n.2 ≠ 0 then false else true
  else true

/-! The A-star search state. A node records its position, the chain of
parent positions (most recent first), and the stored g, h, f floats. -/

structure SNode where
  pos : Pos
  rest : List Pos
  g : EReal
  h : EReal
  f : EReal

def SNode.chain (n : SNode) : List Pos := n.pos :: n.rest

structure AState where
  openL : List SNode
  closedL : List Pos
  gcosts : Pos → Option EReal

/-- One iteration of the neighbor loop of a_star_search for direction d:
skip out-of-bounds, non-walkable, or diagonally invalid neighbors; otherwise
relax the g cost and push a node when the new cost improves on the map. -/
noncomputable def expandDir (g : Grid) (endP : Pos) (n : SNode) (st : AState)
    (d : ℤ × ℤ) : AState :=
  let nx := n.pos.1 + d.1
  let ny := n.pos.2 + d.2
  if nx < 0 ∨ ny < 0 ∨ (g.w : ℤ) ≤ nx ∨ (g.h : ℤ) ≤ ny then st
  else if g.cell nx ny ≠ 0 then st
  else if is_diagonal_move_valid g n.pos (nx, ny) = false then st
  else
    let moveCost : ℝ := Real.sqrt ((d.1 : ℝ) * (d.1 : ℝ) + (d.2 : ℝ) * (d.2 : ℝ))
    let newG : EReal := (st.gcosts n.pos).getD ⊤ + (moveCost : EReal)
    if (st.gcosts (nx, ny)).isNone = true ∨ newG < (st.gcosts (nx, ny)).getD ⊤ then
      let hCost : EReal := ((eDist (nx, ny) endP : ℝ) : EReal)
      let nd : SNode := { pos := (nx, ny), rest := n.chain, g := newG, h := hCost, f := newG + hCost }
      { openL := st.openL ++ [nd],
        closedL := st.closedL,
        gcosts := fun q => if q = (nx, ny) then some newG else st.gcosts q }
    else st

noncomputable def expandNode (g : Grid) (dirs : List (ℤ × ℤ)) (endP : Pos) (n : SNode)
    (st : AState) : AState :=
  dirs.foldl (expandDir g endP n) st

/-- Popping from the binary heap: remove an element whose f value is minimal
in the heap. This covers every tie-breaking order heapq may realize. -/
def popMin (l : List SNode) (n : SNode) (rest : List SNode) : Prop :=
  ∃ i : Fin l.length, l.get i = n ∧ rest = l.eraseIdx i ∧ ∀ m ∈ l, n.f ≤ m.f

/-- Complete runs of the main loop of a_star_search: pop a minimal-f node;
drop it if its position is already closed; return the reversed parent chain
when its position is the end position; otherwise close it and expand its
neighbors. An empty heap yields the absent result. -/
inductive ARun (g : Grid) (dirs : List (ℤ × ℤ)) (endP : Pos) : AState → Option (List Pos) → Prop
  | exhausted (st : AState) : st.openL = [] → ARun g dirs endP st none
  | skip (st : AState) (n : SNode) (rest : List SNode) (r : Option (List Pos)) :
      popMin st.openL n rest → n.pos ∈ st.closedL →
      ARun g dirs endP ⟨rest, st.closedL, st.gcosts⟩ r → ARun g dirs endP st r
  | reachEnd (st : AState) (n : SNode) (rest : List SNode) :
      popMin st.openL n rest → n.pos ∉ st.closedL → n.pos = endP →
      ARun g dirs endP st (some n.chain.reverse)
  | expand (st : AState) (n : SNode) (rest : List SNode) (r : Option (List Pos)) :
      popMin st.openL n rest → n.pos ∉ st.closedL → n.pos ≠ endP →
      ARun g dirs endP (expandNode g dirs endP n ⟨rest, n.pos :: st.closedL, st.gcosts⟩) r →
      ARun g dirs endP st r

/-- The start node of a_star_search: g, h and f are all initialized to 0. -/
noncomputable def startNode (p : Pos) : SNode :=
  { pos := p, rest := [], g := 0, h := 0, f := 0 }

/-- The initial state: heap holding the start node, empty closed set, and
the g-cost map sending the start position to 0. -/
noncomputable def initState (p : Pos) : AState :=
  { openL := [startNode p], closedL := [],
    gcosts := fun q => if q = p then some 0 else none }

/-- The effective start position: clamp, then adjust when unwalkable. -/
def aStartPos (g : Grid) (s : Pos) : Pos := adjustPoint g (clampPos g s)

/-- The effective end position: clamp, then adjust when unwalkable. -/
def aEndPos (g : Grid) (e : Pos) : Pos := adjustPoint g (clampPos g e)

/-- Embedding of a_star_search from src/modules/pathfinding.py: the relation
holds when some execution of the search on grid g from s to e produces
result r (a path, or none when the frontier is exhausted). -/
def a_star_search (g : Grid) (s e : Pos) (r : Option (List Pos)) : Prop :=
  ARun g DIRECTIONS_32 (aEndPos g e) (initState (aStartPos g s)) r

/-! Valid steps and paths on a grid, and path costs. -/

def stepOK (g : Grid) (dirs : List (ℤ × ℤ)) (u v : Pos) : Prop :=
  (v.1 - u.1, v.2 - u.2) ∈ dirs ∧
    ¬(v.1 < 0 ∨ v.2 < 0 ∨ (g.w : ℤ) ≤ v.1 ∨ (g.h : ℤ) ≤ v.2) ∧
    g.cell v.1 v.2 = 0 ∧ is_diagonal_move_valid g u v = true

def pathOK (g : Grid) (dirs : List (ℤ × ℤ)) (p : List Pos) : Prop :=
  List.Chain' (stepOK g dirs) p

noncomputable def pathCost : List Pos → ℝ
  | [] => 0
  | [_] => 0
  | a :: b :: t => eDist a b + pathCost (b :: t)

/-! Basic facts about eDist and pathCost. -/

noncomputable def toC (p : Pos) : ℂ := ⟨(p.1 : ℝ), (p.2 : ℝ)⟩

lemma eDist_eq_abs (a b : Pos) : eDist a b = Complex.abs (toC a - toC b) := by
  unfold eDist toC
  rw [Complex.abs_apply, Complex.normSq_apply]
  simp only [Complex.sub_re, Complex.sub_im]
  congr 1
  push_cast
  ring

lemma eDist_comm (a b : Pos) : eDist a b = eDist b a := by
  rw [eDist_eq_abs, eDist_eq_abs, AbsoluteValue.map_sub]

lemma eDist_nonneg (a b : Pos) : 0 ≤ eDist a b := Real.sqrt_nonneg _

lemma eDist_self (a : Pos) : eDist a a = 0 := by
  unfold eDist; simp

lemma eDist_triangle (a b c : Pos) : eDist a c ≤ eDist a b + eDist b c := by
  rw [eDist_eq_abs, eDist_eq_abs, eDist_eq_abs]
  exact Complex.abs.sub_le (toC a) (toC b) (toC c)

lemma eDist_of_delta (u : Pos) (d : ℤ × ℤ) :
    Real.sqrt ((d.1 : ℝ) * (d.1 : ℝ) + (d.2 : ℝ) * (d.2 : ℝ)) =
      eDist u (u.1 + d.1, u.2 + d.2) := by
  unfold eDist
  congr 1
  push_cast
  ring

lemma pathCost_nil : pathCost [] = 0 := rfl

lemma pathCost_single (a : Pos) : pathCost [a] = 0 := rfl

lemma pathCost_cons_cons (a b : Pos) (t : List Pos) :
    pathCost (a :: b :: t) = eDist a b + pathCost (b :: t) := rfl

lemma pathCost_nonneg (p : List Pos) : 0 ≤ pathCost p := by
  induction p with
  | nil => simp [pathCost_nil]
  | cons a t ih =>
    cases t with
    | nil => simp [pathCost_single]
    | cons b t2 =>
      rw [pathCost_cons_cons]
      exact add_nonneg (eDist_nonneg a b) ih

lemma pathCost_concat (l : List Pos) (b a : Pos) (h : l.getLast? = some b) :
    pathCost (l ++ [a]) = pathCost l + eDist b a := by
  induction l with
  | nil => simp at h
  | cons x t ih =>
    cases t with
    | nil =>
      simp only [List.getLast?_singleton, Option.some.injEq] at h
      subst h
      simp [pathCost_cons_cons, pathCost_single, pathCost_nil]
    | cons y t2 =>
      have h2 : (y :: t2).getLast? = some b := by
        rw [List.getLast?_cons_cons] at h; exact h
      have := ih h2
      simp only [List.cons_append, pathCost_cons_cons] at *
      rw [this]; ring

lemma pathCost_reverse (l : List Pos) : pathCost l.reverse = pathCost l := by
  induction l with
  | nil => simp
  | cons a t ih =>
    cases t with
    | nil => simp
    | cons b t2 =>
      have hrev : (a :: b :: t2).reverse = (b :: t2).reverse ++ [a] := by
        simp
      rw [hrev, pathCost_concat ((b :: t2).reverse) b a, ih, pathCost_cons_cons,
        eDist_comm]
      · ring
      · rw [List.getLast?_reverse]
        rfl

lemma eDist_head_le_telescope (e : Pos) :
    ∀ (l : List Pos) (a b : Pos), (a :: l).getLast? = some b →
      eDist a e ≤ pathCost (a :: l) + eDist b e := by
  intro l
  induction l with
  | nil =>
    intro a b h
    simp only [List.getLast?_singleton, Option.some.injEq] at h
    subst h
    simp [pathCost_single]
  | cons c t ih =>
    intro a b h
    rw [List.getLast?_cons_cons] at h
    have h1 := eDist_triangle a c e
    have h2 := ih c b h
    rw [pathCost_cons_cons]
    linarith

/-! Invariants of the A-star loop. -/

def Gval (st : AState) (u : Pos) : EReal := (st.gcosts u).getD ⊤

def nodeOK (g : Grid) (dirs : List (ℤ × ℤ)) (endP sp : Pos) (n : SNode) : Prop :=
  pathOK g dirs n.chain.reverse ∧ n.chain.getLast? = some sp ∧
    n.g = ((pathCost n.chain : ℝ) : EReal) ∧
    n.h = ((eDist n.pos endP : ℝ) : EReal) ∧ n.f = n.g + n.h

def relaxedAt (g : Grid) (dirs : List (ℤ × ℤ)) (st : AState) (u : Pos) : Prop :=
  ∀ v : Pos, stepOK g dirs u v → Gval st v ≤ Gval st u + ((eDist u v : ℝ) : EReal)

def InvCore (g : Grid) (dirs : List (ℤ × ℤ)) (endP sp : Pos) (st : AState)
    (C : List Pos) : Prop :=
  (∀ n ∈ st.openL, nodeOK g dirs endP sp n) ∧
  (∀ n ∈ st.openL, Gval st n.pos ≤ n.g) ∧
  (∀ u : Pos, u ∉ st.closedL → st.gcosts u ≠ none →
    ∃ n ∈ st.openL, n.pos = u ∧ n.g = Gval st u) ∧
  (∀ (u : Pos) (c : EReal), st.gcosts u = some c →
    ∃ q : List Pos, pathOK g dirs q ∧ q.head? = some sp ∧ q.getLast? = some u ∧
      c = ((pathCost q : ℝ) : EReal)) ∧
  (∀ u ∈ C, relaxedAt g dirs st u) ∧
  (∀ u ∈ st.closedL,
    ∀ q : List Pos, pathOK g dirs q → q.head? = some sp → q.getLast? = some u →
      Gval st u ≤ ((pathCost q : ℝ) : EReal)) ∧
  Gval st sp ≤ 0

def AInv (g : Grid) (dirs : List (ℤ × ℤ)) (endP sp : Pos) (st : AState) : Prop :=
  InvCore g dirs endP sp st st.closedL

/-! Helper lemmas about list surgery and popping. -/

lemma mem_eraseIdx_of_ne {l : List SNode} {i : Fin l.length} {m : SNode}
    (hm : m ∈ l) (hne : m ≠ l.get i) : m ∈ l.eraseIdx (i : ℕ) := by
  have hd : l.drop (i : ℕ) = l.get i :: l.drop ((i : ℕ) + 1) := by
    rw [List.get_eq_getElem, List.drop_eq_getElem_cons i.isLt]
  have hl : l.take (i : ℕ) ++ l.get i :: l.drop ((i : ℕ) + 1) = l := by
    rw [← hd, List.take_append_drop]
  rw [List.eraseIdx_eq_take_drop_succ, List.mem_append]
  have hm2 := hm
  rw [← hl, List.mem_append, List.mem_cons] at hm2
  rcases hm2 with h | h | h
  · exact Or.inl h
  · exact absurd h hne
  · exact Or.inr h

lemma popMin_mem {l : List SNode} {n : SNode} {rest : List SNode} (h : popMin l n rest) :
    n ∈ l := by
  obtain ⟨i, hget, -, -⟩ := h
  exact List.mem_iff_get.mpr ⟨i, hget⟩

lemma popMin_le {l : List SNode} {n : SNode} {rest : List SNode} (h : popMin l n rest) :
    ∀ m ∈ l, n.f ≤ m.f := by
  obtain ⟨i, -, -, hle⟩ := h
  exact hle

lemma popMin_rest_subset {l : List SNode} {n : SNode} {rest : List SNode}
    (h : popMin l n rest) : ∀ m ∈ rest, m ∈ l := by
  obtain ⟨i, -, hrest, -⟩ := h
  intro m hm
  rw [hrest] at hm
  exact (List.eraseIdx_sublist l (i : ℕ)).mem hm

lemma popMin_mem_rest_of_ne {l : List SNode} {n : SNode} {rest : List SNode}
    (h : popMin l n rest) {m : SNode} (hm : m ∈ l) (hne : m ≠ n) : m ∈ rest := by
  obtain ⟨i, hget, hrest, -⟩ := h
  rw [hrest]
  exact mem_eraseIdx_of_ne hm (by rw [hget]; exact hne)

lemma popMin_singleton {a n : SNode} {rest : List SNode} (h : popMin [a] n rest) :
    n = a ∧ rest = [] := by
  obtain ⟨i, hget, hrest, -⟩ := h
  have hi0 := i.isLt
  simp only [List.length_singleton] at hi0
  have hi : (i : ℕ) = 0 := by omega
  constructor
  · rw [← hget]
    simp [List.get_eq_getElem, hi]
  · rw [hrest, hi]
    rfl

/-! Small EReal facts used to move between stored float values and reals. -/

lemma ereal_coe_cancel {x y z : ℝ}
    (h : ((x : ℝ) : EReal) + ((z : ℝ) : EReal) ≤ ((y : ℝ) : EReal) + ((z : ℝ) : EReal)) :
    x ≤ y := by
  rw [← EReal.coe_add, ← EReal.coe_add, EReal.coe_le_coe_iff] at h
  linarith

lemma gcosts_ne_none_of_le_coe {st : AState} {u : Pos} {r : ℝ}
    (h : Gval st u ≤ ((r : ℝ) : EReal)) : st.gcosts u ≠ none := by
  intro h0
  rw [Gval, h0] at h
  simp only [Option.getD_none] at h
  exact absurd (lt_of_lt_of_le (EReal.coe_lt_top r) h) (lt_irrefl _)

/-! Path cost splits along a decomposition point. -/

lemma pathCost_append_cons (l : List Pos) (a : Pos) (t : List Pos) :
    pathCost (l ++ a :: t) = pathCost (l ++ [a]) + pathCost (a :: t) := by
  induction l with
  | nil => simp [pathCost_single]
  | cons x l2 ih =>
    cases l2 with
    | nil =>
      simp only [List.cons_append, List.nil_append, pathCost_cons_cons, pathCost_single]
      ring
    | cons y l3 =>
      simp only [List.cons_append, pathCost_cons_cons] at *
      rw [ih]
      ring

lemma pathOK_append_last {g : Grid} {dirs : List (ℤ × ℤ)} {l : List Pos} {a w : Pos}
    (hw : l.getLast? = some w) (h : pathOK g dirs (l ++ [a])) :
    pathOK g dirs l ∧ stepOK g dirs w a := by
  rw [pathOK, List.chain'_append] at h
  obtain ⟨h1, -, h3⟩ := h
  exact ⟨h1, h3 w hw a rfl⟩

/-- A valid path whose vertices before the last all lie in the relaxation set
bounds the stored g cost of its final vertex. -/
lemma closed_chain_bound {g : Grid} {dirs : List (ℤ × ℤ)} {endP sp : Pos} {st : AState}
    {C : List Pos} (hcore : InvCore g dirs endP sp st C) :
    ∀ q : List Pos, pathOK g dirs q → q.head? = some sp →
      (∀ x ∈ q.dropLast, x ∈ C) →
      ∀ u : Pos, q.getLast? = some u → Gval st u ≤ ((pathCost q : ℝ) : EReal) := by
  obtain ⟨-, -, -, -, hRel, -, hSt⟩ := hcore
  intro q
  induction q using List.reverseRecOn with
  | nil =>
    intro _ _ _ u hu
    simp at hu
  | append_singleton l a ih =>
    intro hq hqh hdl u hu
    cases l with
    | nil =>
      simp only [List.nil_append, List.head?_cons, Option.some.injEq] at hqh
      simp only [List.nil_append, List.getLast?_singleton, Option.some.injEq] at hu
      subst hqh
      subst hu
      simp only [List.nil_append, pathCost_single]
      rw [show (((0 : ℝ)) : EReal) = (0 : EReal) from EReal.coe_zero]
      exact hSt
    | cons b t =>
      have hlne : (b :: t) ≠ ([] : List Pos) := by simp
      have hw : (b :: t).getLast? = some ((b :: t).getLast hlne) :=
        List.getLast?_eq_getLast _ hlne
      set w : Pos := (b :: t).getLast hlne with hwdef
      have hua : u = a := by
        rw [List.getLast?_concat] at hu
        exact (Option.some.injEq _ _ ▸ hu.symm)
      subst hua
      obtain ⟨hOKl, hstep⟩ := pathOK_append_last hw hq
      have hhead : (b :: t).head? = some sp := by
        simp only [List.cons_append, List.head?_cons, Option.some.injEq] at hqh
        simp [hqh]
      have hdl2 : ∀ x ∈ (b :: t), x ∈ C := by
        intro x hx
        apply hdl
        rw [List.dropLast_concat]
        exact hx
      have hwC : w ∈ C := hdl2 w (List.getLast_mem hlne)
      have hGw := ih hOKl hhead (fun x hx => hdl2 x ((List.dropLast_sublist _).mem hx)) w hw
      have hrel := hRel w hwC u hstep
      have htrans := le_trans hrel (add_le_add hGw (le_refl _))
      rw [← EReal.coe_add, ← pathCost_concat (b :: t) w u hw] at htrans
      exact htrans

/-- At the moment a node with an unclosed position is popped, its stored g
value agrees with the g-cost map. -/
lemma pop_g_eq {g : Grid} {dirs : List (ℤ × ℤ)} {endP sp : Pos} {st : AState}
    {n : SNode} {rest : List SNode} (hinv : AInv g dirs endP sp st)
    (hpop : popMin st.openL n rest) (hnc : n.pos ∉ st.closedL) :
    n.g = Gval st n.pos ∧ st.gcosts n.pos ≠ none := by
  obtain ⟨hOK, hOG, hFr, hAch, hRel, hCl, hSt⟩ := hinv
  have hmem := popMin_mem hpop
  obtain ⟨-, -, hg, hh, hf⟩ := hOK n hmem
  have hGle := hOG n hmem
  have hne : st.gcosts n.pos ≠ none := by
    intro h0
    rw [Gval, h0] at hGle
    simp only [Option.getD_none, top_le_iff] at hGle
    rw [hg] at hGle
    exact EReal.coe_ne_top _ hGle
  obtain ⟨m, hmmem, hmpos, hmg⟩ := hFr n.pos hnc hne
  have hfle := popMin_le hpop m hmmem
  obtain ⟨-, -, hmgr, hmh, hmf⟩ := hOK m hmmem
  rw [hf, hmf, hg, hmgr, hh, hmh, hmpos] at hfle
  have hreal : pathCost n.chain ≤ pathCost m.chain := ereal_coe_cancel hfle
  refine ⟨le_antisymm ?_ hGle, hne⟩
  rw [← hmg, hg, hmgr, EReal.coe_le_coe_iff]
  exact hreal

lemma dropWhile_head_false {α : Type} (p : α → Bool) :
    ∀ {q : List α} {x : α} {q2 : List α}, q.dropWhile p = x :: q2 → p x = false := by
  intro q
  induction q with
  | nil => intro x q2 h; simp at h
  | cons a t ih =>
    intro x q2 h
    rw [List.dropWhile_cons] at h
    by_cases hpa : p a = true
    · rw [if_pos hpa] at h
      exact ih h
    · rw [if_neg hpa] at h
      have : a = x := (List.cons.injEq a t x q2 ▸ h).1
      rw [← this]
      exact Bool.not_eq_true _ ▸ hpa

/-- At the moment a node with an unclosed position is popped, its stored g
value is at most the cost of every valid path from the effective start to the
popped position. -/
lemma pop_opt {g : Grid} {dirs : List (ℤ × ℤ)} {endP sp : Pos} {st : AState}
    {n : SNode} {rest : List SNode} (hinv : AInv g dirs endP sp st)
    (hpop : popMin st.openL n rest) (hnc : n.pos ∉ st.closedL) :
    ∀ q : List Pos, pathOK g dirs q → q.head? = some sp → q.getLast? = some n.pos →
      n.g ≤ ((pathCost q : ℝ) : EReal) := by
  intro q hq hqh hql
  have hinv2 := hinv
  obtain ⟨hOK, hOG, hFr, hAch, hRel, hCl, hSt⟩ := hinv2
  classical
  set p : Pos → Bool := fun x => decide (x ∈ st.closedL) with hp
  have hnp_mem : n.pos ∈ q := by
    have hqne : q ≠ [] := by intro h0; rw [h0] at hql; simp at hql
    have hql2 := hql
    rw [List.getLast?_eq_getLast _ hqne, Option.some.injEq] at hql2
    rw [← hql2]
    exact List.getLast_mem hqne
  have hdw_ne : q.dropWhile p ≠ [] := by
    intro h0
    have hqall : q.takeWhile p = q := by
      have := List.takeWhile_append_dropWhile p q
      rwa [h0, List.append_nil] at this
    have : p n.pos = true := List.mem_takeWhile_imp (by rw [hqall]; exact hnp_mem)
    rw [hp] at this
    simp only [decide_eq_true_eq] at this
    exact hnc this
  obtain ⟨x, q2, hxq2⟩ := List.exists_cons_of_ne_nil hdw_ne
  have hsplit : q.takeWhile p ++ x :: q2 = q := by
    rw [← hxq2]; exact List.takeWhile_append_dropWhile p q
  set q1 : List Pos := q.takeWhile p with hq1
  have hxnc : x ∉ st.closedL := by
    have hfalse := dropWhile_head_false p hxq2
    rw [hp] at hfalse
    simpa only [decide_eq_false_iff_not] using hfalse
  have hq1C : ∀ y ∈ q1, y ∈ st.closedL := by
    intro y hy
    have := List.mem_takeWhile_imp hy
    rw [hp] at this
    simpa only [decide_eq_true_eq] using this
  -- decompose validity and cost along the split
  have hqsplit : pathOK g dirs (q1 ++ x :: q2) := by rw [hsplit]; exact hq
  have hcost : pathCost q = pathCost (q1 ++ [x]) + pathCost (x :: q2) := by
    rw [← hsplit]; exact pathCost_append_cons q1 x q2
  have hOK1 : pathOK g dirs (q1 ++ [x]) := by
    rw [pathOK, List.chain'_append] at hqsplit ⊢
    obtain ⟨h1, h2, h3⟩ := hqsplit
    refine ⟨h1, List.chain'_singleton x, ?_⟩
    intro a ha y hy
    simp only [List.head?_cons, Option.mem_def, Option.some.injEq] at hy
    subst hy
    exact h3 a ha x (by simp)
  have hOK2 : pathOK g dirs (x :: q2) := by
    rw [pathOK, List.chain'_append] at hqsplit
    exact hqsplit.2.1
  have hhead1 : (q1 ++ [x]).head? = some sp := by
    cases hq1e : q1 with
    | nil =>
      rw [← hsplit, hq1e] at hqh
      simp only [List.nil_append, List.head?_cons] at hqh ⊢
      exact hqh
    | cons b t =>
      rw [← hsplit, hq1e] at hqh
      simp only [List.cons_append, List.head?_cons] at hqh ⊢
      exact hqh
  have hlast1 : (q1 ++ [x]).getLast? = some x := List.getLast?_concat _
  have hdrop1 : ∀ y ∈ (q1 ++ [x]).dropLast, y ∈ st.closedL := by
    intro y hy
    rw [List.dropLast_concat] at hy
    exact hq1C y hy
  have hGx : Gval st x ≤ ((pathCost (q1 ++ [x]) : ℝ) : EReal) :=
    closed_chain_bound hinv (q1 ++ [x]) hOK1 hhead1 hdrop1 x hlast1
  have hxne : st.gcosts x ≠ none := gcosts_ne_none_of_le_coe hGx
  obtain ⟨m, hmmem, hmpos, hmg⟩ := hFr x hxnc hxne
  have hfle := popMin_le hpop m hmmem
  obtain ⟨-, -, hmgr, hmh, hmf⟩ := hOK m hmmem
  obtain ⟨-, -, hg, hh, hf⟩ := hOK n (popMin_mem hpop)
  -- telescope the heuristic along the suffix
  have hlast2 : (x :: q2).getLast? = some n.pos := by
    rw [← hsplit] at hql
    rwa [List.getLast?_append_of_ne_nil q1 (by simp)] at hql
  have htel := eDist_head_le_telescope endP q2 x n.pos hlast2
  -- combine
  have hmgle : m.g ≤ ((pathCost (q1 ++ [x]) : ℝ) : EReal) := by rw [hmg]; exact hGx
  have hmfle : m.f ≤ ((pathCost (q1 ++ [x]) + eDist x endP : ℝ) : EReal) := by
    rw [hmf, hmh, hmpos, EReal.coe_add]
    exact add_le_add hmgle (le_refl _)
  have hnfle := le_trans (hfle) hmfle
  rw [hf, hg, hh, ← EReal.coe_add, EReal.coe_le_coe_iff] at hnfle
  rw [hg, EReal.coe_le_coe_iff, hcost]
  linarith [hnfle, htel]

lemma head?_append_left {l1 l2 : List Pos} {a : Pos} (h : l1.head? = some a) :
    (l1 ++ l2).head? = some a := by
  cases l1 with
  | nil => simp at h
  | cons b t => simpa using h

/-- Extending a valid reversed chain by one valid step. -/
lemma chain_extend {g : Grid} {dirs : List (ℤ × ℤ)} {sp : Pos} {n : SNode} {v : Pos}
    (hOK : pathOK g dirs n.chain.reverse) (hsp : n.chain.getLast? = some sp)
    (hstep : stepOK g dirs n.pos v) :
    pathOK g dirs (n.chain.reverse ++ [v]) ∧
      (n.chain.reverse ++ [v]).head? = some sp ∧
      (n.chain.reverse ++ [v]).getLast? = some v ∧
      pathCost (n.chain.reverse ++ [v]) = pathCost n.chain + eDist n.pos v := by
  have hrevne : n.chain.reverse ≠ [] := by
    simp [SNode.chain]
  have hrevlast : n.chain.reverse.getLast? = some n.pos := by
    rw [List.getLast?_reverse]
    rfl
  refine ⟨?_, ?_, List.getLast?_concat _, ?_⟩
  · rw [pathOK, List.chain'_append]
    refine ⟨hOK, List.chain'_singleton v, ?_⟩
    intro a ha y hy
    simp only [Option.mem_def] at ha hy
    rw [hrevlast] at ha
    simp only [List.head?_cons, Option.some.injEq] at ha hy
    rw [← ha, ← hy]
    exact hstep
  · apply head?_append_left
    rw [List.head?_reverse]
    exact hsp
  · rw [pathCost_concat _ n.pos v hrevlast, pathCost_reverse]

lemma Gval_mk (o : List SNode) (cl : List Pos) (gc : Pos → Option EReal) (u : Pos) :
    Gval ⟨o, cl, gc⟩ u = (gc u).getD ⊤ := rfl

/-- One direction of the neighbor loop preserves the mid-expansion invariant. -/
lemma expandDir_mid {g : Grid} {dirs : List (ℤ × ℤ)} {endP sp : Pos} {n : SNode}
    {C : List Pos} {s : AState} {d : ℤ × ℤ} (hd : d ∈ dirs)
    (hcore : InvCore g dirs endP sp s C)
    (hclos : s.closedL = n.pos :: C)
    (hgpos : s.gcosts n.pos = some ((pathCost n.chain : ℝ) : EReal))
    (hchainOK : pathOK g dirs n.chain.reverse)
    (hchainsp : n.chain.getLast? = some sp) :
    InvCore g dirs endP sp (expandDir g endP n s d) C ∧
      (expandDir g endP n s d).closedL = n.pos :: C ∧
      (expandDir g endP n s d).gcosts n.pos = s.gcosts n.pos ∧
      (∀ u : Pos, Gval (expandDir g endP n s d) u ≤ Gval s u) ∧
      (stepOK g dirs n.pos (n.pos.1 + d.1, n.pos.2 + d.2) →
        Gval (expandDir g endP n s d) (n.pos.1 + d.1, n.pos.2 + d.2) ≤
          ((pathCost n.chain + eDist n.pos (n.pos.1 + d.1, n.pos.2 + d.2) : ℝ) : EReal)) := by
  simp only [expandDir]
  split_ifs with h1 h2 h3 h4
  · refine ⟨hcore, hclos, rfl, fun u => le_refl _, ?_⟩
    intro hstep
    exact absurd h1 hstep.2.1
  · refine ⟨hcore, hclos, rfl, fun u => le_refl _, ?_⟩
    intro hstep
    exact absurd hstep.2.2.1 h2
  · refine ⟨hcore, hclos, rfl, fun u => le_refl _, ?_⟩
    intro hstep
    rw [hstep.2.2.2] at h3
    exact absurd h3 (by simp)
  · -- push branch
    set v : Pos := (n.pos.1 + d.1, n.pos.2 + d.2) with hv
    have hstep : stepOK g dirs n.pos v := by
      refine ⟨?_, h1, not_ne_iff.mp h2, by simpa using h3⟩
      have hdd : (v.1 - n.pos.1, v.2 - n.pos.2) = d := by
        rw [hv]; simp
      rwa [hdd]
    obtain ⟨hOKo, hOG, hFr, hAch, hRel, hCl, hSt⟩ := hcore
    have hext := chain_extend hchainOK hchainsp hstep
    have hpcv : pathCost (v :: n.chain) = pathCost n.chain + eDist n.pos v := by
      rw [show (v :: n.chain) = v :: n.pos :: n.rest from rfl, pathCost_cons_cons,
        eDist_comm]
      exact add_comm _ _
    set mcE : EReal := ((Real.sqrt ((d.1 : ℝ) * (d.1 : ℝ) + (d.2 : ℝ) * (d.2 : ℝ)) : ℝ) : EReal) with hmc
    set newGE : EReal := (s.gcosts n.pos).getD ⊤ + mcE with hnge
    set hCostE : EReal := ((eDist v endP : ℝ) : EReal) with hhe
    set ndE : SNode := ⟨v, n.chain, newGE, hCostE, newGE + hCostE⟩ with hnd
    set S2 : AState := ⟨s.openL ++ [ndE], s.closedL, fun q => if q = v then some newGE else s.gcosts q⟩ with hS2
    have hnewG : newGE = ((pathCost (v :: n.chain) : ℝ) : EReal) := by
      rw [hnge, hmc, hgpos, Option.getD_some, eDist_of_delta n.pos d, ← hv, ← EReal.coe_add, hpcv]
    have hvnc : v ∉ s.closedL := by
      intro hvc
      have hb := hCl v hvc (n.chain.reverse ++ [v]) hext.1 hext.2.1 hext.2.2.1
      rw [hext.2.2.2, ← hpcv, ← hnewG] at hb
      rcases h4 with h4 | h4
      · rw [Option.isNone_iff_eq_none] at h4
        rw [Gval, h4] at hb
        simp only [Option.getD_none, top_le_iff] at hb
        rw [hnewG] at hb
        exact EReal.coe_ne_top _ hb
      · exact absurd (lt_of_lt_of_le h4 hb) (lt_irrefl _)
    have hnpc : n.pos ∈ s.closedL := by
      rw [hclos]; exact List.mem_cons_self _ _
    have hvne : v ≠ n.pos := fun hh => hvnc (hh ▸ hnpc)
    have hnewle : newGE ≤ Gval s v := by
      rcases h4 with h4 | h4
      · rw [Option.isNone_iff_eq_none] at h4
        rw [Gval, h4]
        simp only [Option.getD_none]
        exact le_top
      · exact le_of_lt h4
    have hGeq : Gval S2 v = newGE := by
      rw [hS2, Gval_mk]
      simp
    have hGne : ∀ u : Pos, u ≠ v → Gval S2 u = Gval s u := by
      intro u hu
      rw [hS2, Gval_mk, Gval]
      simp [hu]
    have hmono : ∀ u : Pos, Gval S2 u ≤ Gval s u := by
      intro u
      by_cases hu : u = v
      · rw [hu, hGeq]
        exact hnewle
      · rw [hGne u hu]
    have hndOK : nodeOK g dirs endP sp ndE := by
      unfold nodeOK
      refine ⟨?_, ?_, ?_, rfl, rfl⟩
      · show pathOK g dirs ((v :: n.chain).reverse)
        rw [List.reverse_cons]
        exact hext.1
      · show (v :: n.chain).getLast? = some sp
        rw [show (v :: n.chain) = v :: n.pos :: n.rest from rfl, List.getLast?_cons_cons]
        exact hchainsp
      · show newGE = ((pathCost (v :: n.chain) : ℝ) : EReal)
        exact hnewG
    refine ⟨?_, by rw [hS2]; exact hclos, ?_, hmono, ?_⟩
    · unfold InvCore
      refine ⟨?_, ?_, ?_, ?_, ?_, ?_, ?_⟩
      · intro m hm
        rw [hS2] at hm
        rcases List.mem_append.mp hm with hmo | hmn
        · exact hOKo m hmo
        · rw [List.mem_singleton] at hmn
          subst hmn
          exact hndOK
      · intro m hm
        rw [hS2] at hm
        rcases List.mem_append.mp hm with hmo | hmn
        · by_cases hmp : m.pos = v
          · rw [hmp, hGeq]
            have hOGm := hOG m hmo
            rw [hmp] at hOGm
            exact le_trans hnewle hOGm
          · rw [hGne m.pos hmp]
            exact hOG m hmo
        · rw [List.mem_singleton] at hmn
          subst hmn
          show Gval S2 ndE.pos ≤ ndE.g
          have hp : ndE.pos = v := rfl
          rw [hp, hGeq]
      · intro u hu hne2
        have hu2 : u ∉ s.closedL := hu
        by_cases huv : u = v
        · subst huv
          refine ⟨ndE, ?_, rfl, ?_⟩
          · rw [hS2]
            exact List.mem_append_right _ (List.mem_singleton_self _)
          · rw [hGeq]
        · obtain ⟨m, hmmem, hmpos, hmg⟩ := hFr u hu2 (by
            rw [hS2] at hne2
            simpa [if_neg huv] using hne2)
          refine ⟨m, ?_, hmpos, ?_⟩
          · rw [hS2]
            exact List.mem_append_left _ hmmem
          · rw [hGne u huv]
            exact hmg
      · intro u c hc
        rw [hS2] at hc
        simp only at hc
        by_cases huv : u = v
        · subst huv
          rw [if_pos rfl, Option.some.injEq] at hc
          refine ⟨n.chain.reverse ++ [v], hext.1, hext.2.1, hext.2.2.1, ?_⟩
          rw [← hc, hnewG, hext.2.2.2, hpcv]
        · rw [if_neg huv] at hc
          exact hAch u c hc
      · intro u huC
        unfold relaxedAt
        intro z hz
        have huclosed : u ∈ s.closedL := by
          rw [hclos]
          exact List.mem_cons_of_mem _ huC
        have hune : u ≠ v := fun hh => hvnc (hh ▸ huclosed)
        have hold := hRel u huC z hz
        calc Gval S2 z ≤ Gval s z := hmono z
        _ ≤ Gval s u + ((eDist u z : ℝ) : EReal) := hold
        _ = Gval S2 u + ((eDist u z : ℝ) : EReal) := by rw [hGne u hune]
      · intro u huc q hq hqh hql
        have hu2 : u ∈ s.closedL := huc
        have hune : u ≠ v := fun hh => hvnc (hh ▸ hu2)
        rw [hGne u hune]
        exact hCl u hu2 q hq hqh hql
      · exact le_trans (hmono sp) hSt
    · rw [hS2]
      simp only [if_neg (Ne.symm hvne)]
    · intro hstep2
      rw [hGeq, hnewG, hpcv]
  · refine ⟨hcore, hclos, rfl, fun u => le_refl _, ?_⟩
    intro hstep
    push_neg at h4
    obtain ⟨h4a, h4b⟩ := h4
    have hle := h4b
    rw [hgpos, Option.getD_some, eDist_of_delta n.pos d, ← EReal.coe_add] at hle
    exact hle

/-- The whole neighbor loop preserves the mid-expansion invariant and fully
relaxes the popped position. -/
lemma expandFold_mid {g : Grid} {dirs : List (ℤ × ℤ)} {endP sp : Pos} {n : SNode}
    {C : List Pos} :
    ∀ (L : List (ℤ × ℤ)) (s : AState), (∀ d ∈ L, d ∈ dirs) →
      InvCore g dirs endP sp s C → s.closedL = n.pos :: C →
      s.gcosts n.pos = some ((pathCost n.chain : ℝ) : EReal) →
      pathOK g dirs n.chain.reverse → n.chain.getLast? = some sp →
      InvCore g dirs endP sp (L.foldl (expandDir g endP n) s) C ∧
        (L.foldl (expandDir g endP n) s).closedL = n.pos :: C ∧
        (L.foldl (expandDir g endP n) s).gcosts n.pos = s.gcosts n.pos ∧
        (∀ u : Pos, Gval (L.foldl (expandDir g endP n) s) u ≤ Gval s u) ∧
        (∀ d ∈ L, stepOK g dirs n.pos (n.pos.1 + d.1, n.pos.2 + d.2) →
          Gval (L.foldl (expandDir g endP n) s) (n.pos.1 + d.1, n.pos.2 + d.2) ≤
            ((pathCost n.chain + eDist n.pos (n.pos.1 + d.1, n.pos.2 + d.2) : ℝ) : EReal)) := by
  intro L
  induction L with
  | nil =>
    intro s hL hcore hclos hgpos hcOK hcsp
    exact ⟨hcore, hclos, rfl, fun u => le_refl _, by intro d hd; simp at hd⟩
  | cons d L2 ih =>
    intro s hL hcore hclos hgpos hcOK hcsp
    have hd : d ∈ dirs := hL d (List.mem_cons_self _ _)
    obtain ⟨hcore1, hclos1, hgp1, hmono1, hstep1⟩ :=
      expandDir_mid hd hcore hclos hgpos hcOK hcsp
    have hgpos1 : (expandDir g endP n s d).gcosts n.pos =
        some ((pathCost n.chain : ℝ) : EReal) := by
      rw [hgp1]; exact hgpos
    obtain ⟨hcore2, hclos2, hgp2, hmono2, hstep2⟩ :=
      ih (expandDir g endP n s d) (fun d2 hd2 => hL d2 (List.mem_cons_of_mem _ hd2))
        hcore1 hclos1 hgpos1 hcOK hcsp
    rw [List.foldl_cons]
    refine ⟨hcore2, hclos2, ?_, ?_, ?_⟩
    · rw [hgp2, hgp1]
    · intro u
      exact le_trans (hmono2 u) (hmono1 u)
    · intro d2 hd2 hstep
      rcases List.mem_cons.mp hd2 with hdd | hdd
      · subst hdd
        exact le_trans (hmono2 _) (hstep1 hstep)
      · exact hstep2 d2 hdd hstep

/-- Expanding a node from a state satisfying the mid-expansion invariant
yields a state satisfying the full invariant. -/
lemma expandNode_inv {g : Grid} {dirs : List (ℤ × ℤ)} {endP sp : Pos} {n : SNode}
    {C : List Pos} {s0 : AState}
    (hcore0 : InvCore g dirs endP sp s0 C) (hclos0 : s0.closedL = n.pos :: C)
    (hgpos0 : s0.gcosts n.pos = some ((pathCost n.chain : ℝ) : EReal))
    (hcOK : pathOK g dirs n.chain.reverse) (hcsp : n.chain.getLast? = some sp) :
    AInv g dirs endP sp (expandNode g dirs endP n s0) := by
  obtain ⟨hcoreR, hclosR, hgpR, hmonoR, hboundR⟩ :=
    expandFold_mid dirs s0 (fun d hd => hd) hcore0 hclos0 hgpos0 hcOK hcsp
  unfold AInv
  show InvCore g dirs endP sp (expandNode g dirs endP n s0)
    (expandNode g dirs endP n s0).closedL
  rw [show (expandNode g dirs endP n s0).closedL =
    (dirs.foldl (expandDir g endP n) s0).closedL from rfl, hclosR]
  obtain ⟨c1, c2, c3, c4, c5, c6, c7⟩ := hcoreR
  refine ⟨c1, c2, c3, c4, ?_, c6, c7⟩
  intro u hu
  rcases List.mem_cons.mp hu with hu | hu
  · subst hu
    unfold relaxedAt
    intro z hz
    have hdmem : (z.1 - n.pos.1, z.2 - n.pos.2) ∈ dirs := hz.1
    have hzz : (n.pos.1 + (z.1 - n.pos.1), n.pos.2 + (z.2 - n.pos.2)) = z := by
      ext <;> simp
    have hb := hboundR _ hdmem (by rw [hzz]; exact hz)
    rw [hzz] at hb
    have hGR : Gval (expandNode g dirs endP n s0) n.pos =
        ((pathCost n.chain : ℝ) : EReal) := by
      rw [Gval, show (expandNode g dirs endP n s0).gcosts =
        (dirs.foldl (expandDir g endP n) s0).gcosts from rfl, hgpR, hgpos0,
        Option.getD_some]
    rw [hGR, ← EReal.coe_add]
    exact hb
  · exact c5 u hu

/-- Dropping an already-closed popped node preserves the invariant. -/
lemma skip_preserves_inv {g : Grid} {dirs : List (ℤ × ℤ)} {endP sp : Pos}
    {st : AState} {n : SNode} {rest : List SNode}
    (hinv : AInv g dirs endP sp st) (hpop : popMin st.openL n rest)
    (hcl : n.pos ∈ st.closedL) :
    AInv g dirs endP sp ⟨rest, st.closedL, st.gcosts⟩ := by
  obtain ⟨hOK, hOG, hFr, hAch, hRel, hCl, hSt⟩ := hinv
  refine ⟨?_, ?_, ?_, hAch, hRel, hCl, hSt⟩
  · intro m hm
    exact hOK m (popMin_rest_subset hpop m hm)
  · intro m hm
    exact hOG m (popMin_rest_subset hpop m hm)
  · intro u hu hne
    obtain ⟨m, hmmem, hmpos, hmg⟩ := hFr u hu hne
    refine ⟨m, ?_, hmpos, hmg⟩
    have hmne : m ≠ n := by
      intro h0
      rw [h0] at hmpos
      rw [← hmpos] at hu
      exact hu hcl
    exact popMin_mem_rest_of_ne hpop hmmem hmne

/-- Closing and expanding a freshly popped node preserves the invariant. -/
lemma expand_preserves_inv {g : Grid} {dirs : List (ℤ × ℤ)} {endP sp : Pos}
    {st : AState} {n : SNode} {rest : List SNode}
    (hinv : AInv g dirs endP sp st) (hpop : popMin st.openL n rest)
    (hnc : n.pos ∉ st.closedL) :
    AInv g dirs endP sp (expandNode g dirs endP n ⟨rest, n.pos :: st.closedL, st.gcosts⟩) := by
  have hgeq := pop_g_eq hinv hpop hnc
  have hopt := pop_opt hinv hpop hnc
  obtain ⟨hOK, hOG, hFr, hAch, hRel, hCl, hSt⟩ := hinv
  obtain ⟨hcOK, hcsp, hg, hh, hf⟩ := hOK n (popMin_mem hpop)
  have hgpos : st.gcosts n.pos = some ((pathCost n.chain : ℝ) : EReal) := by
    rcases h0 : st.gcosts n.pos with _ | c
    · exact absurd h0 hgeq.2
    · have hgv : Gval st n.pos = c := by
        rw [Gval, h0, Option.getD_some]
      rw [← hgeq.1, hg] at hgv
      rw [← hgv]
  have hcore0 : InvCore g dirs endP sp ⟨rest, n.pos :: st.closedL, st.gcosts⟩ st.closedL := by
    refine ⟨?_, ?_, ?_, hAch, hRel, ?_, hSt⟩
    · intro m hm
      exact hOK m (popMin_rest_subset hpop m hm)
    · intro m hm
      exact hOG m (popMin_rest_subset hpop m hm)
    · intro u hu hne
      have hu2 : u ∉ st.closedL := fun h0 => hu (List.mem_cons_of_mem _ h0)
      have hune : u ≠ n.pos := fun h0 => hu (h0 ▸ List.mem_cons_self _ _)
      obtain ⟨m, hmmem, hmpos, hmg⟩ := hFr u hu2 hne
      refine ⟨m, ?_, hmpos, hmg⟩
      have hmne : m ≠ n := by
        intro h0
        rw [h0] at hmpos
        exact hune hmpos.symm
      exact popMin_mem_rest_of_ne hpop hmmem hmne
    · intro u hu q hq hqh hql
      rcases List.mem_cons.mp hu with hu | hu
      · subst hu
        have hle := hopt q hq hqh hql
        rw [hg] at hle
        have hgv : Gval st n.pos = ((pathCost n.chain : ℝ) : EReal) := by
          rw [Gval, hgpos, Option.getD_some]
        rw [show Gval (⟨rest, n.pos :: st.closedL, st.gcosts⟩ : AState) n.pos =
          Gval st n.pos from rfl, hgv]
        exact hle
      · exact hCl u hu q hq hqh hql
  exact expandNode_inv hcore0 rfl hgpos hcOK hcsp

/-- Soundness of the main loop: from any state satisfying the invariant,
every run that returns a path returns a valid path from the effective start
to the end position whose cost is minimal among all valid paths. -/
lemma arun_sound {g : Grid} {dirs : List (ℤ × ℤ)} {endP sp : Pos} :
    ∀ {st : AState} {r : Option (List Pos)}, ARun g dirs endP st r →
      AInv g dirs endP sp st →
      ∀ p : List Pos, r = some p →
        pathOK g dirs p ∧ p.head? = some sp ∧ p.getLast? = some endP ∧
          ∀ q : List Pos, pathOK g dirs q → q.head? = some sp → q.getLast? = some endP →
            pathCost p ≤ pathCost q := by
  intro st r hrun
  induction hrun with
  | exhausted st h0 =>
    intro _ p hp
    exact absurd hp (by simp)
  | skip st n rest r hpop hcl hrun2 ih =>
    intro hinv p hp
    exact ih (skip_preserves_inv hinv hpop hcl) p hp
  | reachEnd st n rest hpop hnc hend =>
    intro hinv p hp
    injection hp with hp
    subst hp
    have hinv2 := hinv
    obtain ⟨hOK, hOG, hFr, hAch, hRel, hCl, hSt⟩ := hinv2
    obtain ⟨hcOK, hcsp, hg, hh, hf⟩ := hOK n (popMin_mem hpop)
    have hopt := pop_opt hinv hpop hnc
    refine ⟨hcOK, ?_, ?_, ?_⟩
    · rw [List.head?_reverse]
      exact hcsp
    · rw [List.getLast?_reverse]
      rw [show n.chain.head? = some n.pos from rfl, hend]
    · intro q hq hqh hql
      have hql2 := hql
      rw [← hend] at hql2
      have hle := hopt q hq hqh hql2
      rw [hg, EReal.coe_le_coe_iff] at hle
      rw [pathCost_reverse]
      exact hle
  | expand st n rest r hpop hnc hne hrun2 ih =>
    intro hinv p hp
    exact ih (expand_preserves_inv hinv hpop hnc) p hp

/-- Soundness from the initial state of a_star_search: the returned path is
valid, runs from the effective start to the end position, and is cost
minimal among valid paths between them. -/
lemma arun_init_sound {g : Grid} {dirs : List (ℤ × ℤ)} {endP sp : Pos}
    {r : Option (List Pos)} (hrun : ARun g dirs endP (initState sp) r) :
    ∀ p : List Pos, r = some p →
      pathOK g dirs p ∧ p.head? = some sp ∧ p.getLast? = some endP ∧
        ∀ q : List Pos, pathOK g dirs q → q.head? = some sp → q.getLast? = some endP →
          pathCost p ≤ pathCost q := by
  cases hrun with
  | exhausted st h0 =>
    intro p hp
    exact absurd hp (by simp)
  | skip st n rest r hpop hcl hrun2 =>
    exact absurd hcl (by simp [initState])
  | reachEnd st n rest hpop hnc hend =>
    intro p hp
    obtain ⟨hn, -⟩ := popMin_singleton hpop
    subst hn
    injection hp with hp
    subst hp
    refine ⟨List.chain'_singleton sp, rfl, ?_, ?_⟩
    · rw [show ((startNode sp).chain.reverse).getLast? = some sp from rfl, ← hend]
      rfl
    · intro q hq hqh hql
      rw [show pathCost ((startNode sp).chain.reverse) = 0 from rfl]
      exact pathCost_nonneg q
  | expand st n rest r hpop hnc hne hrun2 =>
    intro p hp
    obtain ⟨hn, hrest⟩ := popMin_singleton hpop
    subst hn
    subst hrest
    have hcore0 : InvCore g dirs endP sp
        ⟨[], (startNode sp).pos :: (initState sp).closedL, (initState sp).gcosts⟩ [] := by
      refine ⟨?_, ?_, ?_, ?_, ?_, ?_, ?_⟩
      · intro m hm
        simp at hm
      · intro m hm
        simp at hm
      · intro u hu hne2
        exfalso
        apply hne2
        have hune : u ≠ sp := by
          intro h0
          apply hu
          rw [h0]
          exact List.mem_cons_self _ _
        show (if u = sp then some (0 : EReal) else none) = none
        rw [if_neg hune]
      · intro u c hc
        have hc2 : (if u = sp then some (0 : EReal) else none) = some c := hc
        by_cases hu : u = sp
        · rw [if_pos hu, Option.some.injEq] at hc2
          subst hu
          refine ⟨[u], List.chain'_singleton u, rfl, rfl, ?_⟩
          rw [← hc2, pathCost_single, EReal.coe_zero]
        · rw [if_neg hu] at hc2
          exact absurd hc2 (by simp)
      · intro u hu
        simp at hu
      · intro u hu q hq hqh hql
        have husp : u = sp := by
          rcases List.mem_cons.mp hu with h0 | h0
          · exact h0
          · simp [initState] at h0
        subst husp
        have hGv : Gval (⟨[], (startNode u).pos :: (initState u).closedL,
            (initState u).gcosts⟩ : AState) u = (0 : EReal) := by
          rw [Gval]
          show (if u = u then some (0 : EReal) else none).getD ⊤ = 0
          rw [if_pos rfl]
          rfl
        rw [hGv, show (0 : EReal) = ((0 : ℝ) : EReal) from EReal.coe_zero.symm,
          EReal.coe_le_coe_iff]
        exact pathCost_nonneg q
      · have hGv : Gval (⟨[], (startNode sp).pos :: (initState sp).closedL,
            (initState sp).gcosts⟩ : AState) sp = (0 : EReal) := by
          rw [Gval]
          show (if sp = sp then some (0 : EReal) else none).getD ⊤ = 0
          rw [if_pos rfl]
          rfl
        rw [hGv]
    have hgpos0 : ((⟨[], (startNode sp).pos :: (initState sp).closedL,
        (initState sp).gcosts⟩ : AState)).gcosts (startNode sp).pos =
        some ((pathCost (startNode sp).chain : ℝ) : EReal) := by
      show (if sp = sp then some (0 : EReal) else none) = some ((pathCost [sp] : ℝ) : EReal)
      rw [if_pos rfl, pathCost_single, EReal.coe_zero]
    have hAinv := expandNode_inv hcore0 rfl hgpos0
      (List.chain'_singleton sp) rfl
    exact arun_sound hrun2 hAinv p hp

/-! Concrete grids and evaluation helpers for the search lemmas. -/

/-- A fully walkable one-cell grid. -/
def grid1 : Grid := ⟨1, 1, fun _ _ => 0⟩

/-- The three-by-three corner-cut grid with walls at (1,0) and (0,1). -/
def grid3 : Grid := ⟨3, 3, fun x y => if (x = 1 ∧ y = 0) ∨ (x = 0 ∧ y = 1) then 1 else 0⟩

lemma popMin_nil {n : SNode} {rest : List SNode} : ¬ popMin [] n rest := by
  rintro ⟨i, -⟩
  exact absurd i.isLt (by simp)

lemma expandDir_eq_of_oob {g : Grid} {endP : Pos} {n : SNode} {s : AState} {d : ℤ × ℤ}
    (h : n.pos.1 + d.1 < 0 ∨ n.pos.2 + d.2 < 0 ∨ (g.w : ℤ) ≤ n.pos.1 + d.1 ∨
      (g.h : ℤ) ≤ n.pos.2 + d.2) :
    expandDir g endP n s d = s := by
  simp only [expandDir]
  rw [if_pos h]

lemma expandDir_eq_of_wall {g : Grid} {endP : Pos} {n : SNode} {s : AState} {d : ℤ × ℤ}
    (h : g.cell (n.pos.1 + d.1) (n.pos.2 + d.2) ≠ 0) :
    expandDir g endP n s d = s := by
  simp only [expandDir]
  by_cases h1 : n.pos.1 + d.1 < 0 ∨ n.pos.2 + d.2 < 0 ∨ (g.w : ℤ) ≤ n.pos.1 + d.1 ∨
      (g.h : ℤ) ≤ n.pos.2 + d.2
  · rw [if_pos h1]
  · rw [if_neg h1, if_pos h]

lemma expandDir_eq_of_diag {g : Grid} {endP : Pos} {n : SNode} {s : AState} {d : ℤ × ℤ}
    (h : is_diagonal_move_valid g n.pos (n.pos.1 + d.1, n.pos.2 + d.2) = false) :
    expandDir g endP n s d = s := by
  simp only [expandDir]
  by_cases h1 : n.pos.1 + d.1 < 0 ∨ n.pos.2 + d.2 < 0 ∨ (g.w : ℤ) ≤ n.pos.1 + d.1 ∨
      (g.h : ℤ) ≤ n.pos.2 + d.2
  · rw [if_pos h1]
  · rw [if_neg h1]
    by_cases h2 : g.cell (n.pos.1 + d.1) (n.pos.2 + d.2) ≠ 0
    · rw [if_pos h2]
    · rw [if_neg h2, if_pos h]

lemma diag_corners_of_valid {gr : Grid} {u v : Pos}
    (hd : is_diagonal_move_valid gr u v = true)
    (h1 : |v.1 - u.1| = 1) (h2 : |v.2 - u.2| = 1) :
    gr.cell v.1 u.2 = 0 ∧ gr.cell u.1 v.2 = 0 := by
  unfold is_diagonal_move_valid at hd
  rw [if_pos ⟨h1, h2⟩] at hd
  by_cases hc : gr.cell v.1 u.2 ≠ 0 ∨ gr.cell u.1 v.2 ≠ 0
  · rw [if_pos hc] at hd
    exact absurd hd (by simp)
  · push_neg at hc
    exact hc

lemma grid3_expand_id :
    expandNode grid3 dirList (1, 1) (startNode ((0 : ℤ), (0 : ℤ)))
      ⟨[], (startNode ((0 : ℤ), (0 : ℤ))).pos :: (initState ((0 : ℤ), (0 : ℤ))).closedL,
        (initState ((0 : ℤ), (0 : ℤ))).gcosts⟩ =
      ⟨[], (startNode ((0 : ℤ), (0 : ℤ))).pos :: (initState ((0 : ℤ), (0 : ℤ))).closedL,
        (initState ((0 : ℤ), (0 : ℤ))).gcosts⟩ := by
  unfold expandNode dirList
  rw [List.foldl_cons, expandDir_eq_of_wall (by decide),
    List.foldl_cons, expandDir_eq_of_diag (by decide),
    List.foldl_cons, expandDir_eq_of_wall (by decide),
    List.foldl_cons, expandDir_eq_of_oob (by decide),
    List.foldl_cons, expandDir_eq_of_oob (by decide),
    List.foldl_cons, expandDir_eq_of_oob (by decide),
    List.foldl_cons, expandDir_eq_of_oob (by decide),
    List.foldl_cons, expandDir_eq_of_oob (by decide),
    List.foldl_nil]

lemma grid3_run_none : ∀ r : Option (List Pos), a_star_search grid3 (0, 0) (1, 1) r →
    r = none := by
  intro r h
  unfold a_star_search at h
  rw [show aStartPos grid3 (0, 0) = ((0 : ℤ), (0 : ℤ)) from by decide,
    show aEndPos grid3 (1, 1) = ((1 : ℤ), (1 : ℤ)) from by decide,
    DIRECTIONS_32_eval] at h
  cases h with
  | exhausted st h0 => rfl
  | skip st n rest r2 hpop hcl hrun2 => exact absurd hcl (by simp [initState])
  | reachEnd st n rest hpop hnc hend =>
    obtain ⟨hn, -⟩ := popMin_singleton hpop
    rw [hn] at hend
    exact absurd hend (by decide)
  | expand st n rest r2 hpop hnc hne hrun2 =>
    obtain ⟨hn, hrest⟩ := popMin_singleton hpop
    subst hn
    subst hrest
    rw [grid3_expand_id] at hrun2
    cases hrun2 with
    | exhausted _ _ => rfl
    | skip _ n2 rest2 r3 hpop2 hcl2 hrun3 => exact absurd hpop2 popMin_nil
    | reachEnd _ n2 rest2 hpop2 hnc2 hend2 => exact absurd hpop2 popMin_nil
    | expand _ n2 rest2 r3 hpop2 hnc2 hne2 hrun3 => exact absurd hpop2 popMin_nil

/-- A complete concrete run of the search on the one-cell grid: the start
coincides with the end, so the first popped node returns the one-cell path. -/
lemma run1 : a_star_search grid1 (0, 0) (0, 0) (some [((0 : ℤ), (0 : ℤ))]) := by
  show ARun grid1 DIRECTIONS_32 (aEndPos grid1 (0, 0)) (initState (aStartPos grid1 (0, 0)))
    (some [((0 : ℤ), (0 : ℤ))])
  rw [show aStartPos grid1 (0, 0) = ((0 : ℤ), (0 : ℤ)) from by decide,
    show aEndPos grid1 (0, 0) = ((0 : ℤ), (0 : ℤ)) from by decide]
  have hres : (some [((0 : ℤ), (0 : ℤ))]) =
      some ((startNode ((0 : ℤ), (0 : ℤ))).chain.reverse) := rfl
  rw [hres]
  refine ARun.reachEnd _ (startNode ((0 : ℤ), (0 : ℤ))) [] ?_ (by simp [initState]) rfl
  refine ⟨⟨0, by simp [initState]⟩, rfl, rfl, ?_⟩
  intro m hm
  rw [show (initState ((0 : ℤ), (0 : ℤ))).openL = [startNode ((0 : ℤ), (0 : ℤ))] from rfl,
    List.mem_singleton] at hm
  subst hm
  exact le_refl _

/-- Claim C1, counterexample: the deduplicated direction set does not consist
of the 8 unit steps plus 24 longer knight-like jump directions; it has only
8 members and none of them has a coordinate of magnitude larger than one. -/
theorem claim_C1_counterexample :
    generate_32_directions.length = 8 ∧
      ¬ ∃ d ∈ generate_32_directions, 1 < d.1.natAbs ∨ 1 < d.2.natAbs := by
  rw [generate_32_directions_eval]
  exact ⟨by decide, by decide⟩

/-- Claim C1 (amended): generating 32 evenly spaced angles, rounding each
(cos, sin) pair to integers and deduplicating yields exactly the 8
orthogonal and diagonal unit steps, in this order; no longer jump direction
survives the rounding. -/
theorem claim_C1_amended :
    DIRECTIONS_32 = [(1, 0), (1, 1), (0, 1), (-1, 1), (-1, 0), (-1, -1), (0, -1), (1, -1)] ∧
      (∀ d ∈ DIRECTIONS_32, d ≠ (0, 0) ∧ d.1.natAbs ≤ 1 ∧ d.2.natAbs ≤ 1) ∧
      DIRECTIONS_32.Nodup := by
  have h := DIRECTIONS_32_eval
  rw [show dirList = [(1, 0), (1, 1), (0, 1), (-1, 1), (-1, 0), (-1, -1), (0, -1),
    ((1 : ℤ), (-1 : ℤ))] from rfl] at h
  rw [h]
  exact ⟨rfl, by decide, by decide⟩

/-- Claim C2: whenever a_star_search returns a path, the path starts at the
effective (clamped and possibly substituted) start, ends at the effective
goal, each consecutive pair differs by a vector of the generated direction
set and lands in bounds on a walkable cell obeying the diagonal-validity
rule, and the summed per-step Euclidean cost of the path is minimal among
all such paths between the two effective endpoints. -/
theorem claim_C2 {gr : Grid} {s e : Pos} {p : List Pos}
    (h : a_star_search gr s e (some p)) :
    pathOK gr DIRECTIONS_32 p ∧ p.head? = some (aStartPos gr s) ∧
      p.getLast? = some (aEndPos gr e) ∧
      ∀ q : List Pos, pathOK gr DIRECTIONS_32 q → q.head? = some (aStartPos gr s) →
        q.getLast? = some (aEndPos gr e) → pathCost p ≤ pathCost q :=
  arun_init_sound h p rfl

theorem claim_C2_witness :
    a_star_search grid1 (0, 0) (0, 0) (some [((0 : ℤ), (0 : ℤ))]) ∧
      (pathOK grid1 DIRECTIONS_32 [((0 : ℤ), (0 : ℤ))] ∧
        ([((0 : ℤ), (0 : ℤ))]).head? = some (aStartPos grid1 (0, 0)) ∧
        ([((0 : ℤ), (0 : ℤ))]).getLast? = some (aEndPos grid1 (0, 0)) ∧
        ∀ q : List Pos, pathOK grid1 DIRECTIONS_32 q →
          q.head? = some (aStartPos grid1 (0, 0)) →
          q.getLast? = some (aEndPos grid1 (0, 0)) →
          pathCost [((0 : ℤ), (0 : ℤ))] ≤ pathCost q) :=
  ⟨run1, claim_C2 run1⟩

/-- Claim C3: a unit-diagonal step in any returned path always has both
orthogonally adjacent corner cells walkable; moreover on the three-by-three
grid with walls at (1,0) and (0,1), the direct diagonal step from (0,0) to
(1,1) is rejected by the diagonal rule and the search reports no path. -/
theorem claim_C3 :
    (∀ (gr : Grid) (s e : Pos) (p : List Pos), a_star_search gr s e (some p) →
      List.Chain' (fun a b => |b.1 - a.1| = 1 → |b.2 - a.2| = 1 →
        gr.cell b.1 a.2 = 0 ∧ gr.cell a.1 b.2 = 0) p) ∧
    is_diagonal_move_valid grid3 (0, 0) (1, 1) = false ∧
    (∀ r : Option (List Pos), a_star_search grid3 (0, 0) (1, 1) r → r = none) := by
  refine ⟨?_, by decide, grid3_run_none⟩
  intro gr s e p h
  have hOK := (arun_init_sound h p rfl).1
  exact List.Chain'.imp (fun a b hs h1 h2 => diag_corners_of_valid hs.2.2.2 h1 h2) hOK

theorem claim_C3_witness :
    a_star_search grid1 (0, 0) (0, 0) (some [((0 : ℤ), (0 : ℤ))]) ∧
      List.Chain' (fun a b : Pos => |b.1 - a.1| = 1 → |b.2 - a.2| = 1 →
        grid1.cell b.1 a.2 = 0 ∧ grid1.cell a.1 b.2 = 0) [((0 : ℤ), (0 : ℤ))] ∧
      (a_star_search grid3 (0, 0) (1, 1) none → (none : Option (List Pos)) = none) :=
  ⟨run1, claim_C3.1 grid1 (0, 0) (0, 0) _ run1, claim_C3.2.2 none⟩

/-! Analysis of the unwalkable-endpoint adjustment scan (claim C7). -/

lemma find?_split {α : Type} (p : α → Bool) :
    ∀ (l : List α) (b : α), l.find? p = some b →
      p b = true ∧ ∃ l1 l2, l = l1 ++ b :: l2 ∧ ∀ a ∈ l1, p a = false := by
  intro l
  induction l with
  | nil => intro b hb; exact absurd hb (by simp)
  | cons a t ih =>
    intro b hb
    by_cases ha : p a = true
    · rw [List.find?_cons_of_pos _ ha] at hb
      rw [Option.some.injEq] at hb
      subst hb
      exact ⟨ha, [], t, rfl, by intro x hx; exact absurd hx (List.not_mem_nil x)⟩
    · rw [List.find?_cons_of_neg _ ha] at hb
      obtain ⟨hpb, l1, l2, hsplit, hall⟩ := ih b hb
      refine ⟨hpb, a :: l1, l2, by rw [hsplit]; rfl, ?_⟩
      intro x hx
      rcases List.mem_cons.mp hx with hx0 | hx1
      · subst hx0
        exact Bool.not_eq_true _ ▸ Bool.of_not_eq_true ha
      · exact hall x hx1

set_option maxRecDepth 8000 in
lemma scanOffsets_bound : ∀ x ∈ scanOffsets, |x.1| ≤ 5 ∧ |x.2| ≤ 5 := by decide

set_option maxRecDepth 8000 in
lemma dirList_sub_scan : ∀ d ∈ dirList, d ∈ scanOffsets := by decide

/-- When every scanned candidate fails, the adjustment keeps the point. -/
lemma adjust_eq_self_of_scanfail {g : Grid} {p : Pos}
    (h : ∀ d ∈ scanOffsets, scanHit g p d = false) : adjustPoint g p = p := by
  unfold adjustPoint
  by_cases hc : g.cell p.1 p.2 ≠ 0
  · have hn : scanOffsets.find? (scanHit g p) = none :=
      List.find?_eq_none.mpr (fun d hd => by rw [h d hd]; exact Bool.false_ne_true)
    rw [if_pos hc, hn]
  · rw [if_neg hc]

/-- When the start position equals the end position, the very first pop of the
heap returns the one-cell path, whatever the grid holds. -/
lemma run_trivial (g : Grid) (dirs : List (ℤ × ℤ)) (sp : Pos) :
    ARun g dirs sp (initState sp) (some [sp]) := by
  have hres : (some [sp]) = some ((startNode sp).chain.reverse) := rfl
  rw [hres]
  refine ARun.reachEnd _ (startNode sp) [] ?_ (by simp [initState]) rfl
  refine ⟨⟨0, by simp [initState]⟩, rfl, rfl, ?_⟩
  intro m hm
  rw [show (initState sp).openL = [startNode sp] from rfl, List.mem_singleton] at hm
  subst hm
  exact le_refl _

lemma foldl_id_of_fix {α β : Type} (f : β → α → β) (s : β) :
    ∀ L : List α, (∀ d ∈ L, f s d = s) → L.foldl f s = s := by
  intro L
  induction L with
  | nil => intro h; rfl
  | cons a t ih =>
    intro h
    rw [List.foldl_cons, h a (List.mem_cons_self a t)]
    exact ih (fun d hd => h d (List.mem_cons_of_mem a hd))

/-- A direction whose scan predicate fails at the node's position is skipped
by the neighbor loop: either it leaves the grid or it hits a wall. -/
lemma expandDir_eq_of_scanfail {g : Grid} {endP : Pos} {n : SNode} {s : AState}
    {d : ℤ × ℤ} (h : scanHit g n.pos d = false) : expandDir g endP n s d = s := by
  by_cases hb : n.pos.1 + d.1 < 0 ∨ n.pos.2 + d.2 < 0 ∨ (g.w : ℤ) ≤ n.pos.1 + d.1 ∨
      (g.h : ℤ) ≤ n.pos.2 + d.2
  · exact expandDir_eq_of_oob hb
  · push_neg at hb
    apply expandDir_eq_of_wall
    intro hc0
    unfold scanHit at h
    simp [hc0, hb.1, hb.2.1, hb.2.2.1, hb.2.2.2] at h

/-- When no scanned cell around the start qualifies and the start differs from
the end, the search closes the start, expands nothing, and exhausts. -/
lemma run_none_of_scanfail {g : Grid} {endP : Pos} {sp : Pos}
    (hsf : ∀ d ∈ scanOffsets, scanHit g sp d = false) (hne : sp ≠ endP) :
    ∀ r, ARun g dirList endP (initState sp) r → r = none := by
  intro r h
  cases h with
  | exhausted st h0 => rfl
  | skip st n rest r2 hpop hcl hrun2 => exact absurd hcl (by simp [initState])
  | reachEnd st n rest hpop hnc hend =>
    obtain ⟨hn, -⟩ := popMin_singleton hpop
    rw [hn] at hend
    exact absurd hend hne
  | expand st n rest r2 hpop hnc hne2 hrun2 =>
    obtain ⟨hn, hrest⟩ := popMin_singleton hpop
    subst hn
    subst hrest
    have hid : expandNode g dirList endP (startNode sp)
        ⟨[], (startNode sp).pos :: (initState sp).closedL, (initState sp).gcosts⟩ =
        ⟨[], (startNode sp).pos :: (initState sp).closedL, (initState sp).gcosts⟩ := by
      unfold expandNode
      apply foldl_id_of_fix
      intro d hd
      exact expandDir_eq_of_scanfail (hsf d (dirList_sub_scan d hd))
    rw [hid] at hrun2
    cases hrun2 with
    | exhausted _ _ => rfl
    | skip _ n2 rest2 r3 hpop2 hcl2 hrun3 => exact absurd hpop2 popMin_nil
    | reachEnd _ n2 rest2 hpop2 hnc2 hend2 => exact absurd hpop2 popMin_nil
    | expand _ n2 rest2 r3 hpop2 hnc2 hne3 hrun3 => exact absurd hpop2 popMin_nil

/-- An eleven-by-eleven grid walkable only at (0,0) and (5,6). -/
def grid7 : Grid := ⟨11, 11, fun x y => if (x = 0 ∧ y = 0) ∨ (x = 5 ∧ y = 6) then 0 else 1⟩

/-- A one-cell grid whose only cell is a wall. -/
def gridW : Grid := ⟨1, 1, fun _ _ => 1⟩

/-- On the all-wall one-cell grid the scan finds nothing, the start keeps its
unwalkable position, and since it equals the end the search still returns the
one-cell path rather than the absent result. -/
lemma runW : a_star_search gridW (0, 0) (0, 0) (some [((0 : ℤ), (0 : ℤ))]) := by
  show ARun gridW DIRECTIONS_32 (aEndPos gridW (0, 0)) (initState (aStartPos gridW (0, 0)))
    (some [((0 : ℤ), (0 : ℤ))])
  rw [show aStartPos gridW (0, 0) = ((0 : ℤ), (0 : ℤ)) from by decide,
    show aEndPos gridW (0, 0) = ((0 : ℤ), (0 : ℤ)) from by decide]
  exact run_trivial _ _ _

/-- Claim C7, counterexample. First defect: on the eleven-by-eleven grid with
walkable cells only at (0,0) and (5,6), the unwalkable start (5,5) is replaced
by (0,0) — the first cell in scan order — even though the scanned offset (0,1)
also hits the walkable cell (5,6), which is strictly nearer in squared
Euclidean distance; the substituted cell is not the nearest one. Second
defect: on the one-cell all-wall grid the scan finds no walkable cell, the
start keeps its unwalkable position, and because it coincides with the end
the search returns the one-cell path, not the absent result the claim
promises. -/
theorem claim_C7_counterexample :
    (adjustPoint grid7 (5, 5) = (0, 0) ∧ grid7.cell 5 5 ≠ 0 ∧
      (0, 1) ∈ scanOffsets ∧ scanHit grid7 (5, 5) (0, 1) = true ∧
      ((5 : ℤ) - 5) ^ 2 + ((6 : ℤ) - 5) ^ 2 < ((0 : ℤ) - 5) ^ 2 + ((0 : ℤ) - 5) ^ 2) ∧
    (scanOffsets.all (fun d => ! scanHit gridW (clampPos gridW (0, 0)) d) = true ∧
      gridW.cell 0 0 ≠ 0 ∧
      a_star_search gridW (0, 0) (0, 0) (some [((0 : ℤ), (0 : ℤ))])) := by
  refine ⟨⟨?_, ?_, ?_, ?_, ?_⟩, ?_, ?_, runW⟩
  · decide
  · decide
  · decide
  · decide
  · decide
  · decide
  · decide

/-- Claim C7 (amended): when an endpoint cell is unwalkable and some scanned
candidate is an in-bounds walkable cell, the adjustment substitutes the first
hit in scan order (dx from -5 to 5 outer, dy from -5 to 5 inner) — a walkable
in-bounds cell within the square radius of 5, every earlier scanned offset
failing — not necessarily the nearest one; when no scanned candidate
qualifies, the point is kept unchanged, and the search then returns the
absent result if the kept start differs from the effective end, but returns
the one-cell path when the two coincide. -/
theorem claim_C7_amended :
    (∀ (g : Grid) (p : Pos) (d : ℤ × ℤ), g.cell p.1 p.2 ≠ 0 → d ∈ scanOffsets →
      scanHit g p d = true →
      ∃ pre post : List (ℤ × ℤ), ∃ dd : ℤ × ℤ, scanOffsets = pre ++ dd :: post ∧
        adjustPoint g p = (p.1 + dd.1, p.2 + dd.2) ∧ scanHit g p dd = true ∧
        (∀ d2 ∈ pre, scanHit g p d2 = false) ∧ |dd.1| ≤ 5 ∧ |dd.2| ≤ 5) ∧
    (∀ (g : Grid) (p : Pos), (∀ d ∈ scanOffsets, scanHit g p d = false) →
      adjustPoint g p = p) ∧
    (∀ (g : Grid) (s e : Pos) (r : Option (List Pos)),
      (∀ d ∈ scanOffsets, scanHit g (clampPos g s) d = false) →
      clampPos g s ≠ aEndPos g e → a_star_search g s e r → r = none) ∧
    (∀ (g : Grid) (s e : Pos), (∀ d ∈ scanOffsets, scanHit g (clampPos g s) d = false) →
      clampPos g s = aEndPos g e → a_star_search g s e (some [clampPos g s])) := by
  refine ⟨?_, ?_, ?_, ?_⟩
  · intro g p d hc hd hhit
    have hsome : (scanOffsets.find? (scanHit g p)).isSome :=
      List.find?_isSome.mpr ⟨d, hd, hhit⟩
    obtain ⟨dd, hdd⟩ := Option.isSome_iff_exists.mp hsome
    obtain ⟨hpdd, l1, l2, hsplit, hall⟩ := find?_split _ _ _ hdd
    have hmem : dd ∈ scanOffsets := by
      rw [hsplit]
      exact List.mem_append_right _ (List.mem_cons_self _ _)
    refine ⟨l1, l2, dd, hsplit, ?_, hpdd, hall,
      (scanOffsets_bound dd hmem).1, (scanOffsets_bound dd hmem).2⟩
    unfold adjustPoint
    rw [if_pos hc, hdd]
  · intro g p h
    exact adjust_eq_self_of_scanfail h
  · intro g s e r hsf hne hrun
    unfold a_star_search aStartPos at hrun
    rw [DIRECTIONS_32_eval, adjust_eq_self_of_scanfail hsf] at hrun
    exact run_none_of_scanfail hsf hne r hrun
  · intro g s e hsf heq
    unfold a_star_search aStartPos
    rw [adjust_eq_self_of_scanfail hsf, heq]
    exact run_trivial _ _ _

theorem claim_C7_witness :
    clampPos gridW (0, 0) = aEndPos gridW (0, 0) ∧
      a_star_search gridW (0, 0) (0, 0) (some [clampPos gridW (0, 0)]) :=
  ⟨by decide, claim_C7_amended.2.2.2 gridW (0, 0) (0, 0) (by decide) (by decide)⟩

/-! Bounds of every grid access of a_star_search (claim C10): the clamped
endpoints are in bounds, and runs only depend on in-bounds cells — two grids
of equal dimensions agreeing on every in-bounds cell yield the same adjusted
endpoints and exactly the same possible results. -/

/-- Two grids with the same dimensions whose cells agree at every in-bounds
index. Cells outside the grid are phantom values of the embedding with no
counterpart in the Python list-of-lists. -/
def gridAgree (g1 g2 : Grid) : Prop :=
  g1.w = g2.w ∧ g1.h = g2.h ∧
    ∀ x y : ℤ, 0 ≤ x → x < (g1.w : ℤ) → 0 ≤ y → y < (g1.h : ℤ) → g1.cell x y = g2.cell x y

lemma gridAgree_symm {g1 g2 : Grid} (h : gridAgree g1 g2) : gridAgree g2 g1 := by
  obtain ⟨hw, hh, hc⟩ := h
  refine ⟨hw.symm, hh.symm, ?_⟩
  intro x y h1 h2 h3 h4
  exact (hc x y h1 (by rw [hw]; exact h2) h3 (by rw [hh]; exact h4)).symm

/-- On a nonempty grid the clamp lands inside the grid. -/
lemma clamp_inBounds {g : Grid} (hw : 0 < g.w) (hh : 0 < g.h) (p : Pos) :
    inBounds g (clampPos g p) := by
  have h1 : (1 : ℤ) ≤ (g.w : ℤ) := by exact_mod_cast hw
  have h2 : (1 : ℤ) ≤ (g.h : ℤ) := by exact_mod_cast hh
  show 0 ≤ max 0 (min p.1 ((g.w : ℤ) - 1)) ∧ max 0 (min p.1 ((g.w : ℤ) - 1)) < (g.w : ℤ) ∧
    0 ≤ max 0 (min p.2 ((g.h : ℤ) - 1)) ∧ max 0 (min p.2 ((g.h : ℤ) - 1)) < (g.h : ℤ)
  omega

lemma find?_congr {α : Type} {p q : α → Bool} :
    ∀ l : List α, (∀ x ∈ l, p x = q x) → l.find? p = l.find? q := by
  intro l
  induction l with
  | nil => intro h; rfl
  | cons a t ih =>
    intro h
    cases hq : q a with
    | true =>
      rw [List.find?_cons_of_pos _ (by rw [h a (List.mem_cons_self a t)]; exact hq),
        List.find?_cons_of_pos _ hq]
    | false =>
      rw [List.find?_cons_of_neg _ (by rw [h a (List.mem_cons_self a t), hq]; exact Bool.false_ne_true),
        List.find?_cons_of_neg _ (by rw [hq]; exact Bool.false_ne_true)]
      exact ih (fun x hx => h x (List.mem_cons_of_mem a hx))

lemma scanHit_congr {g1 g2 : Grid} (hg : gridAgree g1 g2) (p : Pos) (d : ℤ × ℤ) :
    scanHit g1 p d = scanHit g2 p d := by
  obtain ⟨hw, hh, hc⟩ := hg
  unfold scanHit
  rw [hw, hh]
  by_cases h1 : 0 ≤ p.1 + d.1
  · by_cases h2 : p.1 + d.1 < (g2.w : ℤ)
    · by_cases h3 : 0 ≤ p.2 + d.2
      · by_cases h4 : p.2 + d.2 < (g2.h : ℤ)
        · rw [hc (p.1 + d.1) (p.2 + d.2) h1 (by rw [hw]; exact h2) h3 (by rw [hh]; exact h4)]
        · simp [h4]
      · simp [h3]
    · simp [h2]
  · simp [h1]

lemma adjust_congr {g1 g2 : Grid} (hg : gridAgree g1 g2) {p : Pos} (hp : inBounds g1 p) :
    adjustPoint g1 p = adjustPoint g2 p := by
  have hcell : g1.cell p.1 p.2 = g2.cell p.1 p.2 :=
    hg.2.2 p.1 p.2 hp.1 hp.2.1 hp.2.2.1 hp.2.2.2
  have hfind : scanOffsets.find? (scanHit g1 p) = scanOffsets.find? (scanHit g2 p) :=
    find?_congr scanOffsets (fun d _ => scanHit_congr hg p d)
  unfold adjustPoint
  rw [hcell, hfind]

/-- The adjustment never leaves the grid: either it keeps the in-bounds point
or it moves to a scanned cell whose bounds checks passed. -/
lemma adjust_inBounds {g : Grid} {p : Pos} (hp : inBounds g p) :
    inBounds g (adjustPoint g p) := by
  unfold adjustPoint
  by_cases hc : g.cell p.1 p.2 ≠ 0
  · rw [if_pos hc]
    cases hfind : scanOffsets.find? (scanHit g p) with
    | none => exact hp
    | some d =>
      have hhit := List.find?_some hfind
      unfold scanHit at hhit
      simp only [Bool.and_eq_true, decide_eq_true_eq, beq_iff_eq] at hhit
      exact ⟨hhit.1.1.1.1, hhit.1.1.1.2, hhit.1.1.2, hhit.1.2⟩
  · rw [if_neg hc]
    exact hp

lemma diag_congr {g1 g2 : Grid} (hg : gridAgree g1 g2) {u v : Pos}
    (hu : inBounds g1 u) (hv : inBounds g1 v) :
    is_diagonal_move_valid g1 u v = is_diagonal_move_valid g2 u v := by
  obtain ⟨hw, hh, hc⟩ := hg
  unfold is_diagonal_move_valid
  by_cases hD : |v.1 - u.1| = 1 ∧ |v.2 - u.2| = 1
  · rw [if_pos hD, if_pos hD, hc v.1 u.2 hv.1 hv.2.1 hu.2.2.1 hu.2.2.2,
      hc u.1 v.2 hu.1 hu.2.1 hv.2.2.1 hv.2.2.2]
  · rw [if_neg hD, if_neg hD]

lemma expandDir_congr {g1 g2 : Grid} (hg : gridAgree g1 g2) {endP : Pos} {n : SNode}
    (hn : inBounds g1 n.pos) (s : AState) (d : ℤ × ℤ) :
    expandDir g1 endP n s d = expandDir g2 endP n s d := by
  obtain ⟨hw, hh, hc⟩ := hg
  by_cases h1 : n.pos.1 + d.1 < 0 ∨ n.pos.2 + d.2 < 0 ∨ (g1.w : ℤ) ≤ n.pos.1 + d.1 ∨
      (g1.h : ℤ) ≤ n.pos.2 + d.2
  · have h1b : n.pos.1 + d.1 < 0 ∨ n.pos.2 + d.2 < 0 ∨ (g2.w : ℤ) ≤ n.pos.1 + d.1 ∨
        (g2.h : ℤ) ≤ n.pos.2 + d.2 := by rw [← hw, ← hh]; exact h1
    rw [expandDir_eq_of_oob h1, expandDir_eq_of_oob h1b]
  · push_neg at h1
    have hvb : inBounds g1 (n.pos.1 + d.1, n.pos.2 + d.2) :=
      ⟨h1.1, h1.2.2.1, h1.2.1, h1.2.2.2⟩
    have hcv : g1.cell (n.pos.1 + d.1) (n.pos.2 + d.2) =
        g2.cell (n.pos.1 + d.1) (n.pos.2 + d.2) :=
      hc _ _ hvb.1 hvb.2.1 hvb.2.2.1 hvb.2.2.2
    have hdg := diag_congr ⟨hw, hh, hc⟩ hn hvb
    simp only [expandDir, hw, hh, hcv, hdg]

lemma expandNode_congr {g1 g2 : Grid} (hg : gridAgree g1 g2) {endP : Pos} {n : SNode}
    (hn : inBounds g1 n.pos) (dirs : List (ℤ × ℤ)) (s : AState) :
    expandNode g1 dirs endP n s = expandNode g2 dirs endP n s := by
  unfold expandNode
  induction dirs generalizing s with
  | nil => rfl
  | cons d t ih =>
    rw [List.foldl_cons, List.foldl_cons, expandDir_congr hg hn s d]
    exact ih _

lemma expandDir_openBounds {g : Grid} {endP : Pos} {n : SNode} {s : AState} {d : ℤ × ℤ} :
    ∀ m ∈ (expandDir g endP n s d).openL, m ∈ s.openL ∨ inBounds g m.pos := by
  intro m hm
  simp only [expandDir] at hm
  split at hm
  next => exact Or.inl hm
  next h1 =>
    split at hm
    next => exact Or.inl hm
    next =>
      split at hm
      next => exact Or.inl hm
      next =>
        split at hm
        next =>
          simp only [List.mem_append, List.mem_singleton] at hm
          rcases hm with hml | hmr
          · exact Or.inl hml
          · subst hmr
            push_neg at h1
            exact Or.inr ⟨h1.1, h1.2.2.1, h1.2.1, h1.2.2.2⟩
        next => exact Or.inl hm

lemma expandNode_openBounds {g : Grid} {endP : Pos} {n : SNode} (dirs : List (ℤ × ℤ)) :
    ∀ (s : AState), ∀ m ∈ (expandNode g dirs endP n s).openL,
      m ∈ s.openL ∨ inBounds g m.pos := by
  unfold expandNode
  induction dirs with
  | nil => intro s m hm; exact Or.inl hm
  | cons d t ih =>
    intro s m hm
    rw [List.foldl_cons] at hm
    rcases ih _ m hm with h | h
    · exact expandDir_openBounds m h
    · exact Or.inr h

/-- Runs only read in-bounds cells: a run over one grid is a run over any
grid agreeing with it on the in-bounds cells, as long as every open node sits
in bounds. -/
lemma arun_congr {g1 g2 : Grid} (hg : gridAgree g1 g2) {dirs : List (ℤ × ℤ)} {endP : Pos} :
    ∀ {st : AState} {r : Option (List Pos)}, ARun g1 dirs endP st r →
      (∀ m ∈ st.openL, inBounds g1 m.pos) → ARun g2 dirs endP st r := by
  intro st r h
  induction h with
  | exhausted st h0 => intro hob; exact ARun.exhausted st h0
  | skip st n rest r hpop hcl hrun ih =>
    intro hob
    refine ARun.skip st n rest r hpop hcl (ih ?_)
    intro m hm
    exact hob m (popMin_rest_subset hpop m hm)
  | reachEnd st n rest hpop hncl hend =>
    intro hob
    exact ARun.reachEnd st n rest hpop hncl hend
  | expand st n rest r hpop hncl hne hrun ih =>
    intro hob
    have hnpos : inBounds g1 n.pos := hob n (popMin_mem hpop)
    refine ARun.expand st n rest r hpop hncl hne ?_
    rw [← expandNode_congr hg hnpos dirs ⟨rest, n.pos :: st.closedL, st.gcosts⟩]
    apply ih
    intro m hm
    rcases expandNode_openBounds dirs _ m hm with h | h
    · exact hob m (popMin_rest_subset hpop m h)
    · exact h

/-- Claim C10: on a nonempty grid, both endpoints are clamped into bounds
before any grid access, and every grid index the search performs afterwards
(endpoint walkability checks, the radius-5 substitution scan, neighbor
expansion, diagonal-validity checks) stays within grid bounds: the adjusted
endpoints and the set of possible results are unchanged when the cells
outside the grid are replaced arbitrarily — the search never depends on a
cell outside the grid. -/
theorem claim_C10 :
    (∀ (g : Grid) (p : Pos), 0 < g.w → 0 < g.h → inBounds g (clampPos g p)) ∧
    (∀ g1 g2 : Grid, 0 < g1.w → 0 < g1.h → gridAgree g1 g2 →
      ∀ (s e : Pos) (r : Option (List Pos)),
        aStartPos g1 s = aStartPos g2 s ∧ aEndPos g1 e = aEndPos g2 e ∧
          (a_star_search g1 s e r ↔ a_star_search g2 s e r)) := by
  constructor
  · intro g p hw hh
    exact clamp_inBounds hw hh p
  · intro g1 g2 hw hh hg s e r
    have hw2 : 0 < g2.w := hg.1 ▸ hw
    have hh2 : 0 < g2.h := hg.2.1 ▸ hh
    have hcls : clampPos g1 s = clampPos g2 s := by
      unfold clampPos
      rw [hg.1, hg.2.1]
    have hcle : clampPos g1 e = clampPos g2 e := by
      unfold clampPos
      rw [hg.1, hg.2.1]
    have hsb : inBounds g1 (clampPos g1 s) := clamp_inBounds hw hh s
    have heb : inBounds g1 (clampPos g1 e) := clamp_inBounds hw hh e
    have hstart : aStartPos g1 s = aStartPos g2 s := by
      unfold aStartPos
      rw [← hcls]
      exact adjust_congr hg hsb
    have hend : aEndPos g1 e = aEndPos g2 e := by
      unfold aEndPos
      rw [← hcle]
      exact adjust_congr hg heb
    refine ⟨hstart, hend, ?_⟩
    have hob1 : ∀ m ∈ (initState (aStartPos g1 s)).openL, inBounds g1 m.pos := by
      intro m hm
      rw [show (initState (aStartPos g1 s)).openL = [startNode (aStartPos g1 s)] from rfl,
        List.mem_singleton] at hm
      subst hm
      exact adjust_inBounds hsb
    have hob2 : ∀ m ∈ (initState (aStartPos g2 s)).openL, inBounds g2 m.pos := by
      intro m hm
      rw [show (initState (aStartPos g2 s)).openL = [startNode (aStartPos g2 s)] from rfl,
        List.mem_singleton] at hm
      subst hm
      exact adjust_inBounds (clamp_inBounds hw2 hh2 s)
    constructor
    · intro h
      unfold a_star_search at h ⊢
      rw [← hstart, ← hend]
      exact arun_congr hg h hob1
    · intro h
      unfold a_star_search at h ⊢
      rw [hstart, hend]
      exact arun_congr (gridAgree_symm hg) h hob2

/-- A one-cell grid agreeing with grid1 in bounds but different outside. -/
def gridX : Grid := ⟨1, 1, fun x y => if x = 0 ∧ y = 0 then 0 else 7⟩

theorem claim_C10_witness :
    inBounds grid1 (clampPos grid1 (5, -3)) ∧
      aStartPos grid1 (0, 0) = aStartPos gridX (0, 0) ∧
      aEndPos grid1 (0, 0) = aEndPos gridX (0, 0) ∧
      (a_star_search grid1 (0, 0) (0, 0) none ↔ a_star_search gridX (0, 0) (0, 0) none) :=
  ⟨claim_C10.1 grid1 (5, -3) (by decide) (by decide),
    claim_C10.2 grid1 gridX (by decide) (by decide)
      ⟨rfl, rfl, fun x y h1 h2 h3 h4 => by
        have h2b : x < ((1 : ℕ) : ℤ) := h2
        have h4b : y < ((1 : ℕ) : ℤ) := h4
        have hx : x = 0 := by omega
        have hy : y = 0 := by omega
        subst hx
        subst hy
        decide⟩
      (0, 0) (0, 0) none⟩

/-! The rasterizer create_walkability_map from src/modules/map_generator.py
(claim C4). Room and door geometry is in meters; Python floats are modelled
as rationals, int() as truncation toward zero, and numpy slice assignment
with its index normalization (negative endpoints wrap by the axis length,
then both endpoints clamp into [0, n]). -/

/-- An axis-aligned rectangle in meters (x, y, width, height). -/
structure RectQ where
  x : ℚ
  y : ℚ
  w : ℚ
  h : ℚ

/-- Python int() on a float: truncation toward zero. -/
def pyInt (q : ℚ) : ℤ := if q < 0 then ⌈q⌉ else ⌊q⌋

/-- A pixel rectangle as slice endpoints grid[x1:x2, y1:y2]. -/
structure CarveRect where
  x1 : ℤ
  y1 : ℤ
  x2 : ℤ
  y2 : ℤ

/-- numpy basic-slice endpoint normalization on an axis of length n. -/
def npIdx (n e : ℤ) : ℤ := min n (max 0 (if e < 0 then e + n else e))

/-- Membership of pixel (i, j) in the numpy slice assignment
grid[x1:x2, y1:y2] over a grid of dimensions n by m. -/
def npMem (n m : ℤ) (c : CarveRect) (i j : ℤ) : Prop :=
  npIdx n c.x1 ≤ i ∧ i < npIdx n c.x2 ∧ npIdx m c.y1 ≤ j ∧ j < npIdx m c.y2

instance (n m : ℤ) (c : CarveRect) (i j : ℤ) : Decidable (npMem n m c i j) := by
  unfold npMem
  infer_instance

/-- The slice assignment grid[x1:x2, y1:y2] = 0. -/
def setZero (n m : ℤ) (c : CarveRect) (f : ℤ → ℤ → ℕ) : ℤ → ℤ → ℕ :=
  fun i j => if npMem n m c i j then 0 else f i j

/-- The pixel rectangle carved for a room: its corners converted to pixels
and inset by the wall thickness on all sides. -/
def roomRect (res : ℚ) (wt : ℤ) (r : RectQ) : CarveRect :=
  { x1 := pyInt (r.x * res) + wt, y1 := pyInt (r.y * res) + wt,
    x2 := pyInt ((r.x + r.w) * res) - wt, y2 := pyInt ((r.y + r.h) * res) - wt }

/-- The pixel rectangle carved for a door: converted to pixels and clamped
to the grid (lower ends at 0, upper ends at the grid dimensions). -/
def doorRect (res : ℚ) (wpx hpx : ℤ) (d : RectQ) : CarveRect :=
  { x1 := max 0 (pyInt (d.x * res)), y1 := max 0 (pyInt (d.y * res)),
    x2 := min wpx (pyInt ((d.x + d.w) * res)), y2 := min hpx (pyInt ((d.y + d.h) * res)) }

/-- Embedding of create_walkability_map: an all-wall grid, then every room
interior carved walkable, then every door rectangle carved walkable. The
doors list gathers the door rectangles of all rooms; their carve order is
irrelevant since carving only writes zeros. -/
def create_walkability_map (width height res : ℚ) (rooms doors : List RectQ) : Grid :=
  let wpx := pyInt (width * res)
  let hpx := pyInt (height * res)
  let wt := pyInt (1 / 10 * res)
  let base : ℤ → ℤ → ℕ := fun _ _ => 1
  let afterRooms := rooms.foldl (fun f r => setZero wpx hpx (roomRect res wt r) f) base
  let afterDoors := doors.foldl (fun f d => setZero wpx hpx (doorRect res wpx hpx d) f) afterRooms
  { w := wpx.toNat, h := hpx.toNat, cell := afterDoors }

/-- The ideal half-open pixel rectangle [x1, x2) x [y1, y2). -/
def rectMem (c : CarveRect) (i j : ℤ) : Prop :=
  c.x1 ≤ i ∧ i < c.x2 ∧ c.y1 ≤ j ∧ j < c.y2

instance (c : CarveRect) (i j : ℤ) : Decidable (rectMem c i j) := by
  unfold rectMem
  infer_instance

/-- A carve rectangle with nonnegative endpoints and upper ends inside the
grid: numpy slice semantics and the ideal rectangle then agree on every
in-grid pixel. -/
def carveOK (n m : ℤ) (c : CarveRect) : Prop :=
  0 ≤ c.x1 ∧ 0 ≤ c.x2 ∧ c.x2 ≤ n ∧ 0 ≤ c.y1 ∧ 0 ≤ c.y2 ∧ c.y2 ≤ m

instance (n m : ℤ) (c : CarveRect) : Decidable (carveOK n m c) := by
  unfold carveOK
  infer_instance

lemma npMem_iff_rectMem {n m : ℤ} {c : CarveRect} {i j : ℤ} (hok : carveOK n m c)
    (hi0 : 0 ≤ i) (hin : i < n) (hj0 : 0 ≤ j) (hjm : j < m) :
    npMem n m c i j ↔ rectMem c i j := by
  obtain ⟨h1, h2, h3, h4, h5, h6⟩ := hok
  unfold npMem npIdx rectMem
  rw [if_neg (not_lt.mpr h1), if_neg (not_lt.mpr h2), if_neg (not_lt.mpr h4),
    if_neg (not_lt.mpr h5)]
  omega

lemma foldl_setZero_eq_zero {n m : ℤ} (g : RectQ → CarveRect) :
    ∀ (L : List RectQ) (f : ℤ → ℤ → ℕ) (i j : ℤ),
      ((L.foldl (fun f r => setZero n m (g r) f) f) i j = 0 ↔
        (∃ r ∈ L, npMem n m (g r) i j) ∨ f i j = 0) := by
  intro L
  induction L with
  | nil => intro f i j; simp
  | cons a t ih =>
    intro f i j
    rw [List.foldl_cons, ih]
    constructor
    · rintro (⟨r, hr, hmem⟩ | hbase)
      · exact Or.inl ⟨r, List.mem_cons_of_mem a hr, hmem⟩
      · unfold setZero at hbase
        by_cases hm : npMem n m (g a) i j
        · exact Or.inl ⟨a, List.mem_cons_self a t, hm⟩
        · rw [if_neg hm] at hbase
          exact Or.inr hbase
    · rintro (⟨r, hr, hmem⟩ | hbase)
      · rcases List.mem_cons.mp hr with h0 | h1
        · subst h0
          refine Or.inr ?_
          unfold setZero
          rw [if_pos hmem]
        · exact Or.inl ⟨r, h1, hmem⟩
      · refine Or.inr ?_
        unfold setZero
        by_cases hm : npMem n m (g a) i j
        · rw [if_pos hm]
        · rw [if_neg hm]
          exact hbase


/-- Claim C4: in the returned grid, an in-grid cell is walkable (0) iff it
lies in some room's interior rectangle inset by the wall thickness, or in
some door rectangle clamped to the grid; and a cell in a door rectangle is
walkable no matter what the room pass left there. The carveOK hypotheses
pin the numpy slices to the ideal rectangles, ruling out the wrap-around of
negative slice endpoints that real layouts never produce. -/
theorem claim_C4 (width height res : ℚ) (rooms doors : List RectQ) (i j : ℤ)
    (hroom : ∀ r ∈ rooms, carveOK (pyInt (width * res)) (pyInt (height * res))
      (roomRect res (pyInt (1 / 10 * res)) r))
    (hdoor : ∀ d ∈ doors, carveOK (pyInt (width * res)) (pyInt (height * res))
      (doorRect res (pyInt (width * res)) (pyInt (height * res)) d))
    (hi0 : 0 ≤ i) (hin : i < pyInt (width * res))
    (hj0 : 0 ≤ j) (hjm : j < pyInt (height * res)) :
    ((create_walkability_map width height res rooms doors).cell i j = 0 ↔
      (∃ r ∈ rooms, rectMem (roomRect res (pyInt (1 / 10 * res)) r) i j) ∨
      (∃ d ∈ doors, rectMem (doorRect res (pyInt (width * res)) (pyInt (height * res)) d) i j)) ∧
    (∀ d ∈ doors, rectMem (doorRect res (pyInt (width * res)) (pyInt (height * res)) d) i j →
      (create_walkability_map width height res rooms doors).cell i j = 0) := by
  have hcell : (create_walkability_map width height res rooms doors).cell i j = 0 ↔
      (∃ d ∈ doors, npMem (pyInt (width * res)) (pyInt (height * res))
        (doorRect res (pyInt (width * res)) (pyInt (height * res)) d) i j) ∨
      ((∃ r ∈ rooms, npMem (pyInt (width * res)) (pyInt (height * res))
        (roomRect res (pyInt (1 / 10 * res)) r) i j) ∨ (fun _ _ => (1 : ℕ)) i j = 0) :=
    (foldl_setZero_eq_zero
        (fun d => doorRect res (pyInt (width * res)) (pyInt (height * res)) d) doors
        (rooms.foldl (fun f r => setZero (pyInt (width * res)) (pyInt (height * res))
          (roomRect res (pyInt (1 / 10 * res)) r) f) (fun _ _ => 1)) i j).trans
      (or_congr_right (foldl_setZero_eq_zero
        (fun r => roomRect res (pyInt (1 / 10 * res)) r) rooms (fun _ _ => 1) i j))
  have hdoorc : (∃ d ∈ doors, npMem (pyInt (width * res)) (pyInt (height * res))
      (doorRect res (pyInt (width * res)) (pyInt (height * res)) d) i j) ↔
      (∃ d ∈ doors, rectMem (doorRect res (pyInt (width * res)) (pyInt (height * res)) d) i j) := by
    constructor
    · rintro ⟨d, hd, hm⟩
      exact ⟨d, hd, (npMem_iff_rectMem (hdoor d hd) hi0 hin hj0 hjm).mp hm⟩
    · rintro ⟨d, hd, hm⟩
      exact ⟨d, hd, (npMem_iff_rectMem (hdoor d hd) hi0 hin hj0 hjm).mpr hm⟩
  have hroomc : (∃ r ∈ rooms, npMem (pyInt (width * res)) (pyInt (height * res))
      (roomRect res (pyInt (1 / 10 * res)) r) i j) ↔
      (∃ r ∈ rooms, rectMem (roomRect res (pyInt (1 / 10 * res)) r) i j) := by
    constructor
    · rintro ⟨r, hr, hm⟩
      exact ⟨r, hr, (npMem_iff_rectMem (hroom r hr) hi0 hin hj0 hjm).mp hm⟩
    · rintro ⟨r, hr, hm⟩
      exact ⟨r, hr, (npMem_iff_rectMem (hroom r hr) hi0 hin hj0 hjm).mpr hm⟩
  have hmain : (create_walkability_map width height res rooms doors).cell i j = 0 ↔
      (∃ r ∈ rooms, rectMem (roomRect res (pyInt (1 / 10 * res)) r) i j) ∨
      (∃ d ∈ doors, rectMem (doorRect res (pyInt (width * res))
        (pyInt (height * res)) d) i j) := by
    have hb : ((fun _ _ => (1 : ℕ)) i j = 0) ↔ False := by simp
    rw [hcell, hdoorc, hroomc, hb, or_false]
    exact or_comm
  refine ⟨hmain, ?_⟩
  intro d hd hm
  exact hmain.mpr (Or.inr ⟨d, hd, hm⟩)

/-- One unit room in a one-by-one-meter building at resolution 10. -/
def roomsW1 : List RectQ := [⟨0, 0, 1, 1⟩]

/-- One door rectangle along the bottom edge of that building. -/
def doorsW1 : List RectQ := [⟨0, 0, 1 / 2, 1 / 10⟩]

theorem claim_C4_witness :
    ((create_walkability_map 1 1 10 roomsW1 doorsW1).cell 2 0 = 0 ↔
      (∃ r ∈ roomsW1, rectMem (roomRect 10 (pyInt (1 / 10 * 10)) r) 2 0) ∨
      (∃ d ∈ doorsW1, rectMem (doorRect 10 (pyInt (1 * 10)) (pyInt (1 * 10)) d) 2 0)) ∧
    (∀ d ∈ doorsW1, rectMem (doorRect 10 (pyInt (1 * 10)) (pyInt (1 * 10)) d) 2 0 →
      (create_walkability_map 1 1 10 roomsW1 doorsW1).cell 2 0 = 0) :=
  claim_C4 1 1 10 roomsW1 doorsW1 2 0
    (by
      intro r hr
      simp only [roomsW1, List.mem_singleton] at hr
      subst hr
      norm_num [carveOK, roomRect, pyInt])
    (by
      intro d hd
      simp only [doorsW1, List.mem_singleton] at hd
      subst hd
      norm_num [carveOK, doorRect, pyInt])
    (by decide) (by norm_num [pyInt]) (by decide) (by norm_num [pyInt])

/-! The binary-space-partitioning generator split_space from
src/modules/map_generator.py (claim C5). random.random() is modelled by a
nondeterministic ratio r with 0 <= r < 1; the emitted leaves are collected
in recursion order. -/

/-- A rectangle produced by split_space (x, y, width, height in meters). -/
structure RectB where
  x : ℚ
  y : ℚ
  w : ℚ
  h : ℚ
deriving DecidableEq

/-- All executions of split_space: leaf when the depth cap or a minimum-size
test fires; otherwise a horizontal or vertical split at
min_size + r * (extent - min_size * 2); the final else branch replays the
source's dead fallback leaf. -/
inductive SplitRun (maxDepth : ℕ) (m : ℚ) : ℚ → ℚ → ℚ → ℚ → ℕ → List RectB → Prop
  | leaf (x y w h : ℚ) (depth : ℕ) :
      maxDepth ≤ depth ∨ w < m * 2 ∨ h < m * 2 →
      SplitRun maxDepth m x y w h depth [⟨x, y, w, h⟩]
  | splitH (x y w h : ℚ) (depth : ℕ) (r : ℚ) (l1 l2 : List RectB) :
      ¬(maxDepth ≤ depth ∨ w < m * 2 ∨ h < m * 2) →
      m * 2 ≤ h → 0 ≤ r → r < 1 →
      SplitRun maxDepth m x y w (m + r * (h - m * 2)) (depth + 1) l1 →
      SplitRun maxDepth m x (y + (m + r * (h - m * 2))) w (h - (m + r * (h - m * 2)))
        (depth + 1) l2 →
      SplitRun maxDepth m x y w h depth (l1 ++ l2)
  | splitV (x y w h : ℚ) (depth : ℕ) (r : ℚ) (l1 l2 : List RectB) :
      ¬(maxDepth ≤ depth ∨ w < m * 2 ∨ h < m * 2) →
      m * 2 ≤ w → 0 ≤ r → r < 1 →
      SplitRun maxDepth m x y (m + r * (w - m * 2)) h (depth + 1) l1 →
      SplitRun maxDepth m (x + (m + r * (w - m * 2))) y (w - (m + r * (w - m * 2))) h
        (depth + 1) l2 →
      SplitRun maxDepth m x y w h depth (l1 ++ l2)
  | leafElse (x y w h : ℚ) (depth : ℕ) :
      ¬(maxDepth ≤ depth ∨ w < m * 2 ∨ h < m * 2) →
      h < m * 2 ∨ w < m * 2 →
      SplitRun maxDepth m x y w h depth [⟨x, y, w, h⟩]

/-- Membership in a half-open rectangle. -/
def memRect (R : RectB) (px py : ℚ) : Prop :=
  R.x ≤ px ∧ px < R.x + R.w ∧ R.y ≤ py ∧ py < R.y + R.h

instance (R : RectB) (px py : ℚ) : Decidable (memRect R px py) := by
  unfold memRect
  infer_instance

/-- splitH with the split position and the list given by value. -/
lemma splitH_eq {maxDepth : ℕ} {m x y w h : ℚ} {depth : ℕ} {r h1v y2v h2v : ℚ}
    {l1 l2 L : List RectB}
    (hg : ¬(maxDepth ≤ depth ∨ w < m * 2 ∨ h < m * 2))
    (hg2 : m * 2 ≤ h) (hr0 : 0 ≤ r) (hr1 : r < 1)
    (e1 : h1v = m + r * (h - m * 2)) (e2 : y2v = y + (m + r * (h - m * 2)))
    (e3 : h2v = h - (m + r * (h - m * 2))) (eL : L = l1 ++ l2)
    (s1 : SplitRun maxDepth m x y w h1v (depth + 1) l1)
    (s2 : SplitRun maxDepth m x y2v w h2v (depth + 1) l2) :
    SplitRun maxDepth m x y w h depth L := by
  rw [e1] at s1
  rw [e2, e3] at s2
  rw [eL]
  exact SplitRun.splitH x y w h depth r l1 l2 hg hg2 hr0 hr1 s1 s2

lemma memRect_mk (a b c d px py : ℚ) :
    memRect ⟨a, b, c, d⟩ px py ↔ (a ≤ px ∧ px < a + c ∧ b ≤ py ∧ py < b + d) := Iff.rfl

/-- Claim C5 (amended): when min_size is nonnegative, the leaves of any
split_space run exactly tile the bounding rectangle — leaf areas sum to the
bounding area, a point lies in the bounding rectangle iff it lies in some
leaf (no gaps, no spill), and no two leaves overlap. -/
theorem claim_C5_amended (maxDepth : ℕ) (m : ℚ) (hm : 0 ≤ m) :
    ∀ (x y w h : ℚ) (depth : ℕ) (L : List RectB), SplitRun maxDepth m x y w h depth L →
      (((L.map (fun R => R.w * R.h)).sum = w * h) ∧
        (∀ px py : ℚ, memRect ⟨x, y, w, h⟩ px py ↔ ∃ R ∈ L, memRect R px py) ∧
        List.Pairwise (fun R1 R2 => ∀ px py : ℚ,
          ¬(memRect R1 px py ∧ memRect R2 px py)) L) := by
  intro x y w h depth L hrun
  induction hrun with
  | leaf x y w h depth hcond =>
    refine ⟨by simp, ?_, by simp⟩
    intro px py
    constructor
    · intro hmem
      exact ⟨⟨x, y, w, h⟩, List.mem_singleton_self _, hmem⟩
    · rintro ⟨R, hR, hmem⟩
      rw [List.mem_singleton] at hR
      subst hR
      exact hmem
  | leafElse x y w h depth hg hcond =>
    refine ⟨by simp, ?_, by simp⟩
    intro px py
    constructor
    · intro hmem
      exact ⟨⟨x, y, w, h⟩, List.mem_singleton_self _, hmem⟩
    · rintro ⟨R, hR, hmem⟩
      rw [List.mem_singleton] at hR
      subst hR
      exact hmem
  | splitH x y w h depth r l1 l2 hg hg2 hr0 hr1 s1 s2 ih1 ih2 =>
    obtain ⟨ha1, hc1, hp1⟩ := ih1
    obtain ⟨ha2, hc2, hp2⟩ := ih2
    simp only [memRect_mk] at hc1 hc2
    have hcut0 : 0 ≤ m + r * (h - m * 2) := by
      have := mul_nonneg hr0 (by linarith : (0 : ℚ) ≤ h - m * 2)
      linarith
    have hcuth : m + r * (h - m * 2) ≤ h := by
      have := mul_le_mul_of_nonneg_right (le_of_lt hr1) (by linarith : (0 : ℚ) ≤ h - m * 2)
      linarith
    refine ⟨?_, ?_, ?_⟩
    · rw [List.map_append, List.sum_append, ha1, ha2]
      ring
    · intro px py
      rw [memRect_mk]
      constructor
      · intro hmem
        obtain ⟨hx1, hx2, hy1, hy2⟩ := hmem
        by_cases hcut : py < y + (m + r * (h - m * 2))
        · obtain ⟨R, hR, hm2⟩ := (hc1 px py).mp ⟨hx1, hx2, hy1, hcut⟩
          exact ⟨R, List.mem_append_left _ hR, hm2⟩
        · push_neg at hcut
          obtain ⟨R, hR, hm2⟩ := (hc2 px py).mp ⟨hx1, hx2, hcut, by linarith⟩
          exact ⟨R, List.mem_append_right _ hR, hm2⟩
      · rintro ⟨R, hR, hm2⟩
        rcases List.mem_append.mp hR with hR1 | hR2
        · obtain ⟨hx1, hx2, hy1, hy2⟩ := (hc1 px py).mpr ⟨R, hR1, hm2⟩
          exact ⟨hx1, hx2, hy1, by linarith⟩
        · obtain ⟨hx1, hx2, hy1, hy2⟩ := (hc2 px py).mpr ⟨R, hR2, hm2⟩
          exact ⟨hx1, hx2, by linarith, by linarith⟩
    · rw [List.pairwise_append]
      refine ⟨hp1, hp2, ?_⟩
      intro R1 hR1 R2 hR2 px py hboth
      obtain ⟨-, -, -, hb1⟩ := (hc1 px py).mpr ⟨R1, hR1, hboth.1⟩
      obtain ⟨-, -, hb2, -⟩ := (hc2 px py).mpr ⟨R2, hR2, hboth.2⟩
      linarith
  | splitV x y w h depth r l1 l2 hg hg2 hr0 hr1 s1 s2 ih1 ih2 =>
    obtain ⟨ha1, hc1, hp1⟩ := ih1
    obtain ⟨ha2, hc2, hp2⟩ := ih2
    simp only [memRect_mk] at hc1 hc2
    have hcut0 : 0 ≤ m + r * (w - m * 2) := by
      have := mul_nonneg hr0 (by linarith : (0 : ℚ) ≤ w - m * 2)
      linarith
    have hcuth : m + r * (w - m * 2) ≤ w := by
      have := mul_le_mul_of_nonneg_right (le_of_lt hr1) (by linarith : (0 : ℚ) ≤ w - m * 2)
      linarith
    refine ⟨?_, ?_, ?_⟩
    · rw [List.map_append, List.sum_append, ha1, ha2]
      ring
    · intro px py
      rw [memRect_mk]
      constructor
      · intro hmem
        obtain ⟨hx1, hx2, hy1, hy2⟩ := hmem
        by_cases hcut : px < x + (m + r * (w - m * 2))
        · obtain ⟨R, hR, hm2⟩ := (hc1 px py).mp ⟨hx1, hcut, hy1, hy2⟩
          exact ⟨R, List.mem_append_left _ hR, hm2⟩
        · push_neg at hcut
          obtain ⟨R, hR, hm2⟩ := (hc2 px py).mp ⟨hcut, by linarith, hy1, hy2⟩
          exact ⟨R, List.mem_append_right _ hR, hm2⟩
      · rintro ⟨R, hR, hm2⟩
        rcases List.mem_append.mp hR with hR1 | hR2
        · obtain ⟨hx1, hx2, hy1, hy2⟩ := (hc1 px py).mpr ⟨R, hR1, hm2⟩
          exact ⟨hx1, by linarith, hy1, hy2⟩
        · obtain ⟨hx1, hx2, hy1, hy2⟩ := (hc2 px py).mpr ⟨R, hR2, hm2⟩
          exact ⟨by linarith, by linarith, hy1, hy2⟩
    · rw [List.pairwise_append]
      refine ⟨hp1, hp2, ?_⟩
      intro R1 hR1 R2 hR2 px py hboth
      obtain ⟨-, hb1, -, -⟩ := (hc1 px py).mpr ⟨R1, hR1, hboth.1⟩
      obtain ⟨hb2, -, -, -⟩ := (hc2 px py).mpr ⟨R2, hR2, hboth.2⟩
      linarith

/-- Claim C5, counterexample: with a negative min_size (-5), a concrete
split_space run on the unit square (maxDepth 2) emits the four leaves
(0,0,1,5), (0,5,1,-2), (0,3,1,-5), (0,-2,1,3). Two distinct leaves both
contain the point (1/2, 1/2), so the leaves overlap; and a leaf contains
(1/2, 9/2), which lies outside the bounding rectangle, so the leaves do not
tile it. -/
theorem claim_C5_counterexample :
    SplitRun 2 (-5) 0 0 1 1 0
      [⟨0, 0, 1, 5⟩, ⟨0, 5, 1, -2⟩, ⟨0, 3, 1, -5⟩, ⟨0, -2, 1, 3⟩] ∧
    memRect ⟨0, 0, 1, 5⟩ (1 / 2) (1 / 2) ∧ memRect ⟨0, -2, 1, 3⟩ (1 / 2) (1 / 2) ∧
    (⟨0, 0, 1, 5⟩ : RectB) ≠ ⟨0, -2, 1, 3⟩ ∧
    memRect ⟨0, 0, 1, 5⟩ (1 / 2) (9 / 2) ∧ ¬ memRect ⟨0, 0, 1, 1⟩ (1 / 2) (9 / 2) := by
  refine ⟨?_, ?_, ?_, ?_, ?_, ?_⟩
  · have lA1 : SplitRun 2 (-5) 0 0 1 5 2 [⟨0, 0, 1, 5⟩] :=
      SplitRun.leaf 0 0 1 5 2 (Or.inl (le_refl 2))
    have lA2 : SplitRun 2 (-5) 0 5 1 (-2) 2 [⟨0, 5, 1, -2⟩] :=
      SplitRun.leaf 0 5 1 (-2) 2 (Or.inl (le_refl 2))
    have lB1 : SplitRun 2 (-5) 0 3 1 (-5) 2 [⟨0, 3, 1, -5⟩] :=
      SplitRun.leaf 0 3 1 (-5) 2 (Or.inl (le_refl 2))
    have lB2 : SplitRun 2 (-5) 0 (-2) 1 3 2 [⟨0, -2, 1, 3⟩] :=
      SplitRun.leaf 0 (-2) 1 3 2 (Or.inl (le_refl 2))
    have hA : SplitRun 2 (-5) 0 0 1 3 1 [⟨0, 0, 1, 5⟩, ⟨0, 5, 1, -2⟩] :=
      splitH_eq (by norm_num) (by norm_num) (by norm_num) (by norm_num)
        (by norm_num : (5 : ℚ) = -5 + 10 / 13 * (3 - -5 * 2))
        (by norm_num : (5 : ℚ) = 0 + (-5 + 10 / 13 * (3 - -5 * 2)))
        (by norm_num : (-2 : ℚ) = 3 - (-5 + 10 / 13 * (3 - -5 * 2)))
        (rfl : [(⟨0, 0, 1, 5⟩ : RectB), ⟨0, 5, 1, -2⟩] = [⟨0, 0, 1, 5⟩] ++ [⟨0, 5, 1, -2⟩])
        lA1 lA2
    have hB : SplitRun 2 (-5) 0 3 1 (-2) 1 [⟨0, 3, 1, -5⟩, ⟨0, -2, 1, 3⟩] :=
      splitH_eq (by norm_num) (by norm_num) (by norm_num) (by norm_num)
        (by norm_num : (-5 : ℚ) = -5 + 0 * (-2 - -5 * 2))
        (by norm_num : (-2 : ℚ) = 3 + (-5 + 0 * (-2 - -5 * 2)))
        (by norm_num : (3 : ℚ) = -2 - (-5 + 0 * (-2 - -5 * 2)))
        (rfl : [(⟨0, 3, 1, -5⟩ : RectB), ⟨0, -2, 1, 3⟩] = [⟨0, 3, 1, -5⟩] ++ [⟨0, -2, 1, 3⟩])
        lB1 lB2
    exact splitH_eq (by norm_num) (by norm_num) (by norm_num) (by norm_num)
      (by norm_num : (3 : ℚ) = -5 + 8 / 11 * (1 - -5 * 2))
      (by norm_num : (3 : ℚ) = 0 + (-5 + 8 / 11 * (1 - -5 * 2)))
      (by norm_num : (-2 : ℚ) = 1 - (-5 + 8 / 11 * (1 - -5 * 2)))
      (rfl : [(⟨0, 0, 1, 5⟩ : RectB), ⟨0, 5, 1, -2⟩, ⟨0, 3, 1, -5⟩, ⟨0, -2, 1, 3⟩] =
        [⟨0, 0, 1, 5⟩, ⟨0, 5, 1, -2⟩] ++ [⟨0, 3, 1, -5⟩, ⟨0, -2, 1, 3⟩])
      hA hB
  · rw [memRect_mk]
    norm_num
  · rw [memRect_mk]
    norm_num
  · intro hcon
    exact absurd (congrArg RectB.y hcon) (by norm_num)
  · rw [memRect_mk]
    norm_num
  · rw [memRect_mk]
    norm_num

theorem claim_C5_witness :
    ((([⟨0, 0, 1, 1⟩] : List RectB).map (fun R => R.w * R.h)).sum = 1 * 1 ∧
      (∀ px py : ℚ, memRect ⟨0, 0, 1, 1⟩ px py ↔
        ∃ R ∈ ([⟨0, 0, 1, 1⟩] : List RectB), memRect R px py) ∧
      List.Pairwise (fun R1 R2 => ∀ px py : ℚ,
        ¬(memRect R1 px py ∧ memRect R2 px py)) ([⟨0, 0, 1, 1⟩] : List RectB)) :=
  claim_C5_amended 0 (1 / 4) (by norm_num) 0 0 1 1 0 [⟨0, 0, 1, 1⟩]
    (SplitRun.leaf 0 0 1 1 0 (Or.inl (le_refl 0)))

/-! ensure_connectivity from src/modules/map_generator.py (claim C6). Rooms
are rectangles in meters; the Prim-like loop is modelled as a
nondeterministic step relation picking any frontier pair (i in the connected
set, j outside, adjacent), guarded exactly by the loop bounds of the source;
set-iteration order is thereby covered in every realization. A created door
is recorded as the edge (i, j). -/

/-- A room rectangle in meters. -/
structure RoomR where
  x : ℚ
  y : ℚ
  w : ℚ
  h : ℚ

/-- Embedding of Room.is_adjacent (epsilon = 0.01): shared vertical wall
with y-overlap, else shared horizontal wall with x-overlap. -/
def RoomR.is_adjacent (a b : RoomR) : Bool :=
  if |a.x + a.w - b.x| < 1 / 100 ∨ |b.x + b.w - a.x| < 1 / 100 then
    decide (¬(a.y + a.h ≤ b.y ∨ b.y + b.h ≤ a.y))
  else if |a.y + a.h - b.y| < 1 / 100 ∨ |b.y + b.h - a.y| < 1 / 100 then
    decide (¬(a.x + a.w ≤ b.x ∨ b.x + b.w ≤ a.x))
  else false

lemma is_adjacent_symm (a b : RoomR) : a.is_adjacent b = b.is_adjacent a := by
  unfold RoomR.is_adjacent
  by_cases h1 : |a.x + a.w - b.x| < 1 / 100 ∨ |b.x + b.w - a.x| < 1 / 100
  · rw [if_pos h1, if_pos (Or.symm h1)]
    exact decide_eq_decide.mpr (by tauto)
  · rw [if_neg h1, if_neg (fun hc => h1 (Or.symm hc))]
    by_cases h2 : |a.y + a.h - b.y| < 1 / 100 ∨ |b.y + b.h - a.y| < 1 / 100
    · rw [if_pos h2, if_pos (Or.symm h2)]
      exact decide_eq_decide.mpr (by tauto)
    · rw [if_neg h2, if_neg (fun hc => h2 (Or.symm hc))]

/-- The adjacency table built at the top of ensure_connectivity:
adjacency[i] holds j iff i and j differ and the rooms are adjacent. -/
def adjOf (rooms : List RoomR) : Fin rooms.length → Fin rooms.length → Bool :=
  fun i j => if i = j then false else (rooms.get i).is_adjacent (rooms.get j)

/-- The loop state: the connected index set and the list of created door
edges (edges_added is its length). -/
structure ConnState (n : ℕ) where
  conn : Finset (Fin n)
  edges : List (Fin n × Fin n)

/-- One iteration of the while loop that finds a frontier pair: guarded by
len(connected) < len(rooms) and edges_added < len(rooms) * 2, it creates a
door between rooms i and j and marks j connected. -/
inductive ConnStep (n : ℕ) (adj : Fin n → Fin n → Bool) : ConnState n → ConnState n → Prop
  | pick (s : ConnState n) (i j : Fin n) :
      s.conn.card < n → s.edges.length < n * 2 →
      i ∈ s.conn → j ∉ s.conn → adj i j = true →
      ConnStep n adj s ⟨insert j s.conn, s.edges ++ [(i, j)]⟩

/-- The loop has exited: all rooms connected, the edge budget spent, or no
frontier pair found in the pass. -/
def ConnDone (n : ℕ) (adj : Fin n → Fin n → Bool) (s : ConnState n) : Prop :=
  n ≤ s.conn.card ∨ n * 2 ≤ s.edges.length ∨
    ¬∃ i j : Fin n, i ∈ s.conn ∧ j ∉ s.conn ∧ adj i j = true

/-- The initial state: connected = {0}, no doors created yet. -/
def initConn (n : ℕ) (hn : 0 < n) : ConnState n := ⟨{⟨0, hn⟩}, []⟩

/-- Embedding of ensure_connectivity: s is a possible final state of the
loop run from the initial state. -/
def ensure_connectivity (n : ℕ) (hn : 0 < n) (adj : Fin n → Fin n → Bool)
    (s : ConnState n) : Prop :=
  Relation.ReflTransGen (ConnStep n adj) (initConn n hn) s ∧ ConnDone n adj s

/-- Reachability through the adjacency table. -/
inductive AdjReach (n : ℕ) (adj : Fin n → Fin n → Bool) : Fin n → Fin n → Prop
  | refl (i : Fin n) : AdjReach n adj i i
  | step (i j k : Fin n) : AdjReach n adj i j → adj j k = true → AdjReach n adj i k

/-- Reachability through created doors, traversed in either direction. -/
inductive EdgeReach (n : ℕ) (edges : List (Fin n × Fin n)) : Fin n → Fin n → Prop
  | refl (i : Fin n) : EdgeReach n edges i i
  | fwd (i j k : Fin n) : EdgeReach n edges i j → (j, k) ∈ edges → EdgeReach n edges i k
  | bwd (i j k : Fin n) : EdgeReach n edges i j → (k, j) ∈ edges → EdgeReach n edges i k

lemma edgeReach_mono {n : ℕ} {e1 e2 : List (Fin n × Fin n)}
    (hsub : ∀ x ∈ e1, x ∈ e2) {i j : Fin n} (h : EdgeReach n e1 i j) :
    EdgeReach n e2 i j := by
  induction h with
  | refl => exact EdgeReach.refl i
  | fwd y z h1 h2 ih => exact EdgeReach.fwd _ _ _ ih (hsub _ h2)
  | bwd y z h1 h2 ih => exact EdgeReach.bwd _ _ _ ih (hsub _ h2)

lemma edgeReach_trans {n : ℕ} {E : List (Fin n × Fin n)} {i j k : Fin n}
    (h1 : EdgeReach n E i j) (h2 : EdgeReach n E j k) : EdgeReach n E i k := by
  induction h2 with
  | refl => exact h1
  | fwd y z hr he ih => exact EdgeReach.fwd _ _ _ ih he
  | bwd y z hr he ih => exact EdgeReach.bwd _ _ _ ih he

lemma edgeReach_symm {n : ℕ} {E : List (Fin n × Fin n)} {i j : Fin n}
    (h : EdgeReach n E i j) : EdgeReach n E j i := by
  induction h with
  | refl => exact EdgeReach.refl i
  | fwd y z hr he ih =>
    exact edgeReach_trans (EdgeReach.bwd z z y (EdgeReach.refl z) he) ih
  | bwd y z hr he ih =>
    exact edgeReach_trans (EdgeReach.fwd z z y (EdgeReach.refl z) he) ih

/-- The loop invariant: room 0 is connected, one door per newly connected
room, and every connected room is adjacency-reachable and door-reachable
from room 0. -/
def ConnInv (n : ℕ) (hn : 0 < n) (adj : Fin n → Fin n → Bool) (s : ConnState n) : Prop :=
  (⟨0, hn⟩ : Fin n) ∈ s.conn ∧
    s.conn.card = s.edges.length + 1 ∧
    (∀ c ∈ s.conn, AdjReach n adj ⟨0, hn⟩ c) ∧
    (∀ c ∈ s.conn, EdgeReach n s.edges ⟨0, hn⟩ c)

lemma connStep_inv {n : ℕ} {hn : 0 < n} {adj : Fin n → Fin n → Bool}
    {s1 s2 : ConnState n} (hstep : ConnStep n adj s1 s2) (hinv : ConnInv n hn adj s1) :
    ConnInv n hn adj s2 := by
  obtain ⟨hroot, hcard, hadjr, hedger⟩ := hinv
  cases hstep with
  | pick i j hc hel hi hj hadj =>
    refine ⟨Finset.mem_insert_of_mem hroot, ?_, ?_, ?_⟩
    · show (insert j s1.conn).card = (s1.edges ++ [(i, j)]).length + 1
      rw [Finset.card_insert_of_not_mem hj, List.length_append, hcard]
      simp
    · intro c hc2
      rcases Finset.mem_insert.mp hc2 with h0 | h1
      · subst h0
        exact AdjReach.step _ _ _ (hadjr i hi) hadj
      · exact hadjr c h1
    · intro c hc2
      have hmono : ∀ x ∈ s1.edges, x ∈ s1.edges ++ [(i, j)] :=
        fun x hx => List.mem_append_left _ hx
      rcases Finset.mem_insert.mp hc2 with h0 | h1
      · subst h0
        exact EdgeReach.fwd _ _ _ (edgeReach_mono hmono (hedger i hi))
          (List.mem_append_right _ (List.mem_singleton_self _))
      · exact edgeReach_mono hmono (hedger c h1)

lemma connRun_inv {n : ℕ} {hn : 0 < n} {adj : Fin n → Fin n → Bool} {s : ConnState n}
    (hrun : Relation.ReflTransGen (ConnStep n adj) (initConn n hn) s) :
    ConnInv n hn adj s := by
  induction hrun with
  | refl =>
    refine ⟨Finset.mem_singleton_self _, by simp [initConn], ?_, ?_⟩
    · intro c hc
      rw [show (initConn n hn).conn = {⟨0, hn⟩} from rfl, Finset.mem_singleton] at hc
      subst hc
      exact AdjReach.refl _
    · intro c hc
      rw [show (initConn n hn).conn = {⟨0, hn⟩} from rfl, Finset.mem_singleton] at hc
      subst hc
      exact EdgeReach.refl _
  | tail h1 h2 ih => exact connStep_inv h2 ih

lemma conn_all_of_nopair {n : ℕ} {hn : 0 < n} {adj : Fin n → Fin n → Bool}
    {s : ConnState n} (hinv : ConnInv n hn adj s)
    (hnp : ¬∃ i j : Fin n, i ∈ s.conn ∧ j ∉ s.conn ∧ adj i j = true) :
    ∀ j : Fin n, AdjReach n adj ⟨0, hn⟩ j → j ∈ s.conn := by
  intro j hr
  induction hr with
  | refl => exact hinv.1
  | step y z hry hadj ih =>
    by_cases hz : z ∈ s.conn
    · exact hz
    · exact absurd ⟨y, z, ih, hz, hadj⟩ hnp

/-- Claim C6: the shared-wall adjacency table is symmetric; for rooms whose
adjacency graph is connected (every room adjacency-reachable from room 0),
any completed run of ensure_connectivity leaves every pair of rooms mutually
reachable through the created doors; and a room that is not
adjacency-reachable from room 0 never enters the connected set (non-fatal
partial connectivity). -/
theorem claim_C6 :
    (∀ (rooms : List RoomR) (i j : Fin rooms.length), adjOf rooms i j = adjOf rooms j i) ∧
    (∀ (rooms : List RoomR) (hn : 0 < rooms.length) (s : ConnState rooms.length),
      ensure_connectivity rooms.length hn (adjOf rooms) s →
      (∀ j : Fin rooms.length, AdjReach rooms.length (adjOf rooms) ⟨0, hn⟩ j) →
      ∀ i j : Fin rooms.length, EdgeReach rooms.length s.edges i j) ∧
    (∀ (rooms : List RoomR) (hn : 0 < rooms.length) (s : ConnState rooms.length),
      ensure_connectivity rooms.length hn (adjOf rooms) s →
      ∀ j : Fin rooms.length, ¬ AdjReach rooms.length (adjOf rooms) ⟨0, hn⟩ j →
      j ∉ s.conn) := by
  refine ⟨?_, ?_, ?_⟩
  · intro rooms i j
    unfold adjOf
    by_cases hij : i = j
    · rw [if_pos hij, if_pos hij.symm]
    · rw [if_neg hij, if_neg (fun hc => hij hc.symm)]
      exact is_adjacent_symm _ _
  · intro rooms hn s hrun hconn i j
    obtain ⟨hrtg, hdone⟩ := hrun
    have hinv := connRun_inv hrtg
    have hall : ∀ c : Fin rooms.length, c ∈ s.conn := by
      have hle : s.conn.card ≤ rooms.length := by
        have h1 : s.conn.card ≤ Finset.univ.card := Finset.card_le_univ s.conn
        rwa [Finset.card_univ, Fintype.card_fin] at h1
      rcases hdone with hc | he | hnp
      · have huniv : s.conn = Finset.univ :=
          Finset.eq_univ_of_card s.conn (by rw [Fintype.card_fin]; omega)
        intro c
        rw [huniv]
        exact Finset.mem_univ c
      · exfalso
        have hcd := hinv.2.1
        omega
      · exact fun c => conn_all_of_nopair hinv hnp c (hconn c)
    exact edgeReach_trans (edgeReach_symm (hinv.2.2.2 i (hall i))) (hinv.2.2.2 j (hall j))
  · intro rooms hn s hrun j hnr hj
    exact hnr ((connRun_inv hrun.1).2.2.1 j hj)

/-- Two side-by-side unit rooms sharing the wall x = 1. -/
def roomsC6 : List RoomR := [⟨0, 0, 1, 1⟩, ⟨1, 0, 1, 1⟩]

/-- The loop state after connecting room 1 to room 0 with one door. -/
def connC6 : ConnState 2 := ⟨insert 1 {0}, [(0, 1)]⟩

lemma adj_roomsC6 : adjOf roomsC6 ⟨0, by decide⟩ ⟨1, by decide⟩ = true := by
  show (if (⟨0, by decide⟩ : Fin roomsC6.length) = ⟨1, by decide⟩ then false
    else RoomR.is_adjacent ⟨0, 0, 1, 1⟩ ⟨1, 0, 1, 1⟩) = true
  rw [if_neg (by decide)]
  unfold RoomR.is_adjacent
  rw [if_pos (Or.inl (by norm_num : |(0 : ℚ) + 1 - 1| < 1 / 100))]
  exact decide_eq_true (by norm_num)

theorem claim_C6_witness : EdgeReach 2 connC6.edges 0 1 :=
  claim_C6.2.1 roomsC6 (by decide) connC6
    ⟨Relation.ReflTransGen.single
        (ConnStep.pick (initConn roomsC6.length (by decide)) ⟨0, by decide⟩ ⟨1, by decide⟩
          (by decide) (by decide) (by decide) (by decide) adj_roomsC6),
      Or.inl (by decide)⟩
    (fun j => by
      have hj2 : (j : ℕ) < 2 := j.isLt
      rcases (by omega : (j : ℕ) = 0 ∨ (j : ℕ) = 1) with h | h
      · rw [(Fin.ext h : j = ⟨0, by decide⟩)]
        exact AdjReach.refl _
      · rw [(Fin.ext h : j = ⟨1, by decide⟩)]
        exact AdjReach.step _ _ _ (AdjReach.refl _) adj_roomsC6)
    ⟨0, by decide⟩ ⟨1, by decide⟩

/-! The path metrics of src/modules/pathfinding.py (claim C8):
path_distance_meters, scaled_step_count, and the travel time computed in
run_pathfinding. -/

/-- Embedding of path_distance_meters: 0 for paths shorter than two nodes,
else the summed Euclidean segment lengths divided by the resolution. -/
noncomputable def path_distance_meters (path : List Pos) (res : ℝ) : ℝ :=
  if path.length < 2 then 0 else pathCost path / res

/-- Python round() to an integer: round half to even. -/
noncomputable def pyRound (x : ℝ) : ℤ :=
  if Int.fract x = 1 / 2 then (if Even ⌊x⌋ then ⌊x⌋ else ⌊x⌋ + 1) else ⌊x + 1 / 2⌋

/-- Embedding of scaled_step_count: the rounded number of step units
covered (int() on the integral float returned by round() is the identity). -/
noncomputable def scaled_step_count (path : List Pos) (res stepUnit : ℝ) : ℤ :=
  pyRound (path_distance_meters path res / stepUnit)

/-- The per-agent travel time computed in run_pathfinding: distance over
speed when the speed is positive, float('inf') otherwise. -/
noncomputable def travel_time (path : List Pos) (res speed : ℝ) : EReal :=
  if 0 < speed then ((path_distance_meters path res / speed : ℝ) : EReal) else ⊤

/-- A straight pixel path of k unit steps along the x axis. -/
def straightPath (k : ℕ) : List Pos := (List.range (k + 1)).map (fun i : ℕ => ((i : ℤ), 0))

lemma straightPath_length (k : ℕ) : (straightPath k).length = k + 1 := by
  unfold straightPath
  rw [List.length_map, List.length_range]

lemma straightPath_cost (k : ℕ) : pathCost (straightPath k) = k := by
  induction k with
  | zero =>
    rw [show straightPath 0 = [(((0 : ℤ), 0) : Pos)] from rfl, pathCost_single]
    exact Nat.cast_zero.symm
  | succ n ih =>
    have hlast : (straightPath n).getLast? = some (((n : ℤ), 0) : Pos) := by
      unfold straightPath
      rw [List.getLast?_map, List.range_succ, List.getLast?_concat]
      rfl
    have hsplit : straightPath (n + 1) = straightPath n ++ [(((n + 1 : ℕ) : ℤ), 0)] := by
      unfold straightPath
      rw [List.range_succ, List.map_append]
      rfl
    have hE : eDist ((n : ℤ), 0) (((n + 1 : ℕ) : ℤ), 0) = 1 := by
      show Real.sqrt ((((n : ℤ) - ((n + 1 : ℕ) : ℤ) : ℤ) : ℝ) ^ 2 +
        (((0 - 0 : ℤ) : ℝ)) ^ 2) = 1
      rw [show ((n : ℤ) - ((n + 1 : ℕ) : ℤ)) = -1 from by push_cast; ring]
      norm_num
    rw [hsplit, pathCost_concat _ _ _ hlast, ih, hE]
    push_cast
    ring

/-- Claim C8: a straight path of k unit pixel steps at resolution r covers
k / r meters; its scaled step count is the half-to-even rounding of the
distance over the step unit (default 0.7 m in the source); its travel time
is distance over speed; and in general the distance of a path with at least
two nodes is the summed segment lengths divided by the resolution. -/
theorem claim_C8 (k : ℕ) (r u s : ℝ) (hk : 1 ≤ k) (hr : 0 < r) (hu : 0 < u) (hs : 0 < s) :
    path_distance_meters (straightPath k) r = (k : ℝ) / r ∧
    scaled_step_count (straightPath k) r u = pyRound ((k : ℝ) / r / u) ∧
    travel_time (straightPath k) r s = (((k : ℝ) / r / s : ℝ) : EReal) ∧
    ∀ p : List Pos, 2 ≤ p.length → path_distance_meters p r = pathCost p / r := by
  have hd : path_distance_meters (straightPath k) r = (k : ℝ) / r := by
    unfold path_distance_meters
    rw [if_neg (by rw [straightPath_length]; omega), straightPath_cost]
  refine ⟨hd, ?_, ?_, ?_⟩
  · unfold scaled_step_count
    rw [hd]
  · unfold travel_time
    rw [if_pos hs, hd]
  · intro p hp
    unfold path_distance_meters
    rw [if_neg (by omega)]

theorem claim_C8_witness :
    path_distance_meters (straightPath 1) 1 = ((1 : ℕ) : ℝ) / 1 ∧
    scaled_step_count (straightPath 1) 1 (7 / 10) = pyRound (((1 : ℕ) : ℝ) / 1 / (7 / 10)) ∧
    travel_time (straightPath 1) 1 2 = ((((1 : ℕ) : ℝ) / 1 / 2 : ℝ) : EReal) ∧
    ∀ p : List Pos, 2 ≤ p.length → path_distance_meters p 1 = pathCost p / 1 :=
  claim_C8 1 1 (7 / 10) 2 (le_refl 1) (by norm_num) (by norm_num) (by norm_num)

/-! find_nearest_exit from src/modules/pathfinding.py (claim C9). Exits are
already integer cell pairs, so the int() conversion of the source is the
identity; min_dist starts at float('inf') and is only replaced on a strict
decrease, so the first of several equally near exits is kept. -/

/-- One iteration of the loop: replace the best pair when the distance
strictly improves. -/
noncomputable def findNearestStep (p : Pos) : EReal × Option Pos → Pos → EReal × Option Pos :=
  fun acc e => if ((eDist p e : ℝ) : EReal) < acc.1 then (((eDist p e : ℝ) : EReal), some e)
    else acc

/-- Embedding of find_nearest_exit. -/
noncomputable def find_nearest_exit (p : Pos) (exits : List Pos) : Option Pos :=
  (exits.foldl (findNearestStep p) (⊤, none)).2

lemma findNearest_invariant (p : Pos) :
    ∀ L : List Pos, L ≠ [] →
      ∃ e : Pos, L.foldl (findNearestStep p) (⊤, none) = (((eDist p e : ℝ) : EReal), some e) ∧
        e ∈ L ∧ (∀ x ∈ L, eDist p e ≤ eDist p x) ∧
        ∃ pre post : List Pos, L = pre ++ e :: post ∧ ∀ x ∈ pre, eDist p e < eDist p x := by
  intro L
  induction L using List.reverseRecOn with
  | nil => intro h; exact absurd rfl h
  | append_singleton L a ih =>
    intro h
    rcases eq_or_ne L [] with hL | hL
    · subst hL
      refine ⟨a, ?_, List.mem_singleton_self a, ?_, [], [], rfl, ?_⟩
      · show findNearestStep p (⊤, none) a = (((eDist p a : ℝ) : EReal), some a)
        unfold findNearestStep
        rw [if_pos (EReal.coe_lt_top _)]
      · intro x hx
        rw [List.nil_append, List.mem_singleton] at hx
        subst hx
        exact le_refl _
      · intro x hx
        exact absurd hx (List.not_mem_nil x)
    · obtain ⟨e, hfold, hmem, hmin, pre, post, hsplit, hpre⟩ := ih hL
      rw [List.foldl_append, hfold, List.foldl_cons, List.foldl_nil]
      by_cases hca : ((eDist p a : ℝ) : EReal) < ((eDist p e : ℝ) : EReal)
      · refine ⟨a, ?_, List.mem_append_right _ (List.mem_singleton_self a), ?_, L, [], rfl, ?_⟩
        · show findNearestStep p (((eDist p e : ℝ) : EReal), some e) a =
            (((eDist p a : ℝ) : EReal), some a)
          unfold findNearestStep
          rw [if_pos hca]
        · intro x hx
          rcases List.mem_append.mp hx with hx1 | hx2
          · exact le_trans (le_of_lt (EReal.coe_lt_coe_iff.mp hca)) (hmin x hx1)
          · rw [List.mem_singleton] at hx2
            subst hx2
            exact le_refl _
        · intro x hx
          exact lt_of_lt_of_le (EReal.coe_lt_coe_iff.mp hca) (hmin x hx)
      · refine ⟨e, ?_, List.mem_append_left _ hmem, ?_, pre, post ++ [a], ?_, hpre⟩
        · show findNearestStep p (((eDist p e : ℝ) : EReal), some e) a =
            (((eDist p e : ℝ) : EReal), some e)
          unfold findNearestStep
          rw [if_neg hca]
        · intro x hx
          rcases List.mem_append.mp hx with hx1 | hx2
          · exact hmin x hx1
          · rw [List.mem_singleton] at hx2
            subst hx2
            exact EReal.coe_le_coe_iff.mp (not_lt.mp hca)
        · rw [hsplit]
          simp

/-- Claim C9: for a nonempty exits list, find_nearest_exit returns an exit
of minimal Euclidean distance to the agent's cell, and every exit listed
before the returned one is strictly farther — ties are broken in favor of
the first exit encountered. -/
theorem claim_C9 (p : Pos) (exits : List Pos) (hne : exits ≠ []) :
    ∃ e : Pos, find_nearest_exit p exits = some e ∧ e ∈ exits ∧
      (∀ x ∈ exits, eDist p e ≤ eDist p x) ∧
      ∃ pre post : List Pos, exits = pre ++ e :: post ∧
        ∀ x ∈ pre, eDist p e < eDist p x := by
  obtain ⟨e, hfold, hmem, hmin, pre, post, hsplit, hpre⟩ := findNearest_invariant p exits hne
  refine ⟨e, ?_, hmem, hmin, pre, post, hsplit, hpre⟩
  unfold find_nearest_exit
  rw [hfold]

theorem claim_C9_witness :
    ∃ e : Pos, find_nearest_exit (0, 0) [((0 : ℤ), (0 : ℤ)), (3, 4)] = some e ∧
      e ∈ [((0 : ℤ), (0 : ℤ)), (3, 4)] ∧
      (∀ x ∈ [((0 : ℤ), (0 : ℤ)), (3, 4)], eDist (0, 0) e ≤ eDist (0, 0) x) ∧
      ∃ pre post : List Pos, [((0 : ℤ), (0 : ℤ)), (3, 4)] = pre ++ e :: post ∧
        ∀ x ∈ pre, eDist (0, 0) e < eDist (0, 0) x :=
  claim_C9 (0, 0) [((0 : ℤ), (0 : ℤ)), (3, 4)] (by simp)
